import Mathlib

/-!
Verification of the triangular-lattice coloring search engine
(`src/unnamed/part_000`, with `src/src/App.tsx` an earlier revision of the
same application).

Shallow embedding conventions:
* `TriangleCoord` mirrors the TS interface `{x, y, isUp}` with integer
  coordinates.
* Colors are natural numbers as in the source (`0 = transparent, 1 = white,
  2 = black, 3 = gray`).
* The JS `Map<string, Color>` keyed by the canonical string
  `"x,y,u|d"` (via `getKey`, a bijection with `TriangleCoord`) is embedded
  as an insertion-ordered association list with `mapGet` / `mapSet`
  implementing JS `Map.get` / `Map.set` semantics (set of an existing key
  overwrites in place, otherwise appends; iteration follows list order).
* JS floating-point numbers are idealised as exact rationals `ℚ`; the
  literals `1e-10` and `0.0001` become `1/10^10` and `1/10^4`.
* The JS `%` on integers is truncated remainder, embedded as `Int.tmod`.
-/

/-- Embeds the TS interface `TriangleCoord {x: number, y: number, isUp: boolean}`. -/
structure TriangleCoord where
  x : Int
  y : Int
  isUp : Bool
deriving DecidableEq, Repr

instance : Inhabited TriangleCoord := ⟨⟨0, 0, true⟩⟩

/-- Embeds `relativeColorNum(a, b) = ((b - 1) - (a - 1) + 3) % 3`
(JS `%` is truncated remainder). -/
def relativeColorNum (a b : Int) : Int :=
  Int.tmod ((b - 1) - (a - 1) + 3) 3

/-- Embeds `areAdjacent(a, b)`: the nested early-return `if` chains of the
source become a disjunction per orientation case. -/
def areAdjacent (a b : TriangleCoord) : Bool :=
  let dx := b.x - a.x
  let dy := b.y - a.y
  if a.isUp then
    if !b.isUp then
      decide ((dx = -1 ∧ dy = 0) ∨ (dx = 1 ∧ dy = 0) ∨ (dx = 0 ∧ dy = -1))
    else false
  else
    if b.isUp then
      decide ((dx = -1 ∧ dy = 0) ∨ (dx = 1 ∧ dy = 0) ∨ (dx = 0 ∧ dy = 1))
    else false

/-- A JS `Map<string, Color>` with canonical triangle keys, embedded as an
insertion-ordered association list. -/
abbrev Coloring : Type := List (TriangleCoord × Nat)

/-- JS `Map.get`: value of the first (unique) entry for the key. -/
def mapGet (m : Coloring) (k : TriangleCoord) : Option Nat :=
  match m.find? (fun p => p.1 = k) with
  | some p => some p.2
  | none => none

/-- JS `Map.set`: overwrite in place if the key is present, else append. -/
def mapSet (m : Coloring) (k : TriangleCoord) (v : Nat) : Coloring :=
  if m.any (fun p => p.1 = k) then
    m.map (fun p => if p.1 = k then (k, v) else p)
  else
    m ++ [(k, v)]

/-- The keys of the embedded map, in iteration order. -/
def mapKeys (m : Coloring) : List TriangleCoord := m.map Prod.fst

-- ## C7: cyclic color-difference algebra

/-- C7: for colors a, b, c ∈ {1,2,3}: `relDiff(a,b) = ((b−1)−(a−1)+3) mod 3`
(mathematical mod, i.e. `Int.emod`), a value in {0,1,2}; `relDiff(c,c) = 0`;
and for a ≠ b, `relDiff(a,b) + relDiff(b,a) = 3`. -/
theorem relativeColorNum_spec (a b c : Int)
    (ha : a = 1 ∨ a = 2 ∨ a = 3) (hb : b = 1 ∨ b = 2 ∨ b = 3)
    (hc : c = 1 ∨ c = 2 ∨ c = 3) :
    relativeColorNum a b = ((b - 1) - (a - 1) + 3) % 3 ∧
    (relativeColorNum a b = 0 ∨ relativeColorNum a b = 1 ∨ relativeColorNum a b = 2) ∧
    relativeColorNum c c = 0 ∧
    (a ≠ b → relativeColorNum a b + relativeColorNum b a = 3) := by
  rcases ha with ha | ha | ha <;> rcases hb with hb | hb | hb <;>
    rcases hc with hc | hc | hc <;> subst ha <;> subst hb <;> subst hc <;>
    refine ⟨by decide, by decide, by decide, fun h => ?_⟩ <;>
    first | (exact absurd rfl h) | decide

/-- Witness for C7 at a = 1, b = 2, c = 3. -/
theorem relativeColorNum_spec_witness :
    ((1 : Int) = 1 ∨ (1 : Int) = 2 ∨ (1 : Int) = 3) ∧
    ((2 : Int) = 1 ∨ (2 : Int) = 2 ∨ (2 : Int) = 3) ∧
    ((3 : Int) = 1 ∨ (3 : Int) = 2 ∨ (3 : Int) = 3) ∧
    (relativeColorNum 1 2 = ((2 - 1) - (1 - 1) + 3) % 3 ∧
     (relativeColorNum 1 2 = 0 ∨ relativeColorNum 1 2 = 1 ∨ relativeColorNum 1 2 = 2) ∧
     relativeColorNum 3 3 = 0 ∧
     ((1 : Int) ≠ 2 → relativeColorNum 1 2 + relativeColorNum 2 1 = 3)) :=
  ⟨by decide, by decide, by decide,
    relativeColorNum_spec 1 2 3 (by decide) (by decide) (by decide)⟩

-- ## C8: adjacency is symmetric; same orientation never adjacent

/-- C8: for all cells a, b (any integer coordinates and orientations),
`areAdjacent a b = areAdjacent b a`, and two cells with the same orientation
are never adjacent. -/
theorem areAdjacent_symm_and_same_orientation (a b : TriangleCoord) :
    areAdjacent a b = areAdjacent b a ∧
    (a.isUp = b.isUp → areAdjacent a b = false) := by
  obtain ⟨ax, ay, au⟩ := a
  obtain ⟨bx, by', bu⟩ := b
  constructor
  · cases au <;> cases bu <;>
      simp only [areAdjacent, Bool.not_true, Bool.not_false, if_true, if_false,
        Bool.false_eq_true, Bool.true_eq_false, decide_eq_decide] <;>
      omega
  · intro h
    cases au <;> cases bu <;> simp_all [areAdjacent]

-- The second conjunct has a hypothesis, so a closed witness:

/-- Witness for C8: concrete up/up pair as same-orientation instance. -/
theorem areAdjacent_symm_and_same_orientation_witness :
    areAdjacent ⟨0, 0, true⟩ ⟨1, 0, false⟩ = areAdjacent ⟨1, 0, false⟩ ⟨0, 0, true⟩ ∧
    ((⟨0, 0, true⟩ : TriangleCoord).isUp = (⟨1, 0, true⟩ : TriangleCoord).isUp →
      areAdjacent ⟨0, 0, true⟩ ⟨1, 0, true⟩ = false) :=
  ⟨(areAdjacent_symm_and_same_orientation ⟨0, 0, true⟩ ⟨1, 0, false⟩).1,
   (areAdjacent_symm_and_same_orientation ⟨0, 0, true⟩ ⟨1, 0, true⟩).2⟩

-- ## DeterminantEngine (`determinant`, Gaussian elimination with partial pivoting)

/-- `m[r][c]` with JS-style indexing (well-formed callers stay in bounds). -/
def get2 (m : List (List Rat)) (r c : Nat) : Rat :=
  (m.getD r []).getD c 0

/-- The pivot-row scan: `maxRow = i; for (k = i+1; k < n; k++) if (|m[k][i]| >
|m[maxRow][i]|) maxRow = k`. -/
def pivotSearch (m : List (List Rat)) (i : Nat) : Nat :=
  (List.range' (i + 1) (m.length - (i + 1))).foldl
    (fun maxRow k => if |get2 m k i| > |get2 m maxRow i| then k else maxRow) i

/-- The destructuring swap `[m[i], m[maxRow]] = [m[maxRow], m[i]]`. -/
def swapRows (m : List (List Rat)) (i j : Nat) : List (List Rat) :=
  let ri := m.getD i []
  let rj := m.getD j []
  (m.set i rj).set j ri

/-- One eliminated row: `factor = m[k][i]/m[i][i]; for (j = i; j < n; j++)
m[k][j] -= factor * m[i][j]` (the factor is read before the inner loop). -/
def elimRow (pivotRow : List Rat) (piv : Rat) (i : Nat) (row : List Rat) : List Rat :=
  let factor := row.getD i 0 / piv
  row.enum.map (fun p => if i ≤ p.1 then p.2 - factor * pivotRow.getD p.1 0 else p.2)

/-- The `for (k = i+1; k < n; k++)` elimination of all rows below the pivot. -/
def eliminateBelow (m : List (List Rat)) (i : Nat) : List (List Rat) :=
  let pivotRow := m.getD i []
  let piv := pivotRow.getD i 0
  m.enum.map (fun p => if i < p.1 then elimRow pivotRow piv i p.2 else p.2)

/-- The main `for (i = 0; i < n; i++)` loop of `determinant`, with the
remaining iteration count as structural fuel (the entry fuel is `n`, and each
iteration advances `i` by one, so the fuel is exactly `n - i`). -/
def detLoop : Nat → List (List Rat) → Rat → Nat → Rat
  | 0, _, det, _ => det
  | fuel + 1, m, det, i =>
    let maxRow := pivotSearch m i
    if |get2 m maxRow i| < 1 / 10 ^ 10 then 0
    else
      let m1 := if maxRow ≠ i then swapRows m i maxRow else m
      let det1 := if maxRow ≠ i then -det else det
      let det2 := det1 * get2 m1 i i
      detLoop fuel (eliminateBelow m1 i) det2 (i + 1)

/-- Embeds `determinant(matrix)`: `n = 0 → 1`, `n = 1 → matrix[0][0]`, else
Gaussian elimination with partial pivoting on a row-by-row copy. -/
def determinant (matrix : List (List Rat)) : Rat :=
  let n := matrix.length
  if n = 0 then 1
  else if n = 1 then get2 matrix 0 0
  else detLoop n matrix 1 0

-- ## C3: determinant base cases and the singular short-circuit

/-- C3: `det([]) = 1`; `det([[k]]) = k`; whenever a pivot step finds that the
largest absolute value in the pivot column is below `1e-10`, the elimination
loop returns exactly 0 immediately (no further elimination); and for matrices
of size ≥ 2 `determinant` is exactly that elimination loop started at row 0. -/
theorem determinant_base_and_singular_shortcircuit :
    determinant [] = 1 ∧
    (∀ k : Rat, determinant [[k]] = k) ∧
    (∀ (fuel : Nat) (m : List (List Rat)) (det : Rat) (i : Nat),
      |get2 m (pivotSearch m i) i| < 1 / 10 ^ 10 →
      detLoop (fuel + 1) m det i = 0) ∧
    (∀ m : List (List Rat), 2 ≤ m.length → determinant m = detLoop m.length m 1 0) := by
  refine ⟨rfl, fun k => rfl, fun fuel m det i h => ?_, fun m hm => ?_⟩
  · simp only [detLoop, if_pos h]
  · have h0 : m.length ≠ 0 := by omega
    have h1 : m.length ≠ 1 := by omega
    simp only [determinant, if_neg h0, if_neg h1]

/-- Witness for C3: the all-zero 2×2 matrix takes the singular short-circuit,
and a size-2 matrix routes `determinant` into the elimination loop. -/
theorem determinant_base_and_singular_shortcircuit_witness :
    determinant [] = 1 ∧ determinant [[(5 : Rat)]] = 5 ∧
    (|get2 [[0, 0], [0, 0]] (pivotSearch [[0, 0], [0, 0]] 0) 0| < 1 / 10 ^ 10 ∧
      detLoop 2 [[0, 0], [0, 0]] 1 0 = 0) ∧
    (2 ≤ ([[(0 : Rat), 0], [0, 0]] : List (List Rat)).length ∧
      determinant [[(0 : Rat), 0], [0, 0]] = detLoop 2 [[0, 0], [0, 0]] 1 0) :=
  ⟨determinant_base_and_singular_shortcircuit.1,
   determinant_base_and_singular_shortcircuit.2.1 5,
   ⟨by norm_num [pivotSearch, get2, List.range'],
    determinant_base_and_singular_shortcircuit.2.2.1 1 [[0, 0], [0, 0]] 1 0
      (by norm_num [pivotSearch, get2, List.range'])⟩,
   ⟨by decide,
    determinant_base_and_singular_shortcircuit.2.2.2 [[0, 0], [0, 0]] (by decide)⟩⟩

-- ## MatrixBuilder (the signed matrix built inside `computeMinorDets`)

/-- The `colorMap.forEach` collecting the colored (non-transparent) entries,
in map iteration order. -/
def coloredCellsOf (cm : Coloring) : List (TriangleCoord × Nat) :=
  cm.filter (fun p => p.2 ≠ 0)

/-- One iteration of the inner `for (j ...)` loop building row `i`:
`if (i !== j && areAdjacent(ti.coord, tj.coord)) { mat[i][j] = -rel;
mat[i][i] += rel }`. -/
def buildRowStep (ts : List (TriangleCoord × Nat)) (i : Nat) (row : List Rat) (j : Nat) :
    List Rat :=
  if i ≠ j then
    let ti := ts.getD i default
    let tj := ts.getD j default
    if areAdjacent ti.1 tj.1 then
      let rel : Rat := ((relativeColorNum ti.2 tj.2 : Int) : Rat)
      let row1 := row.set j (-rel)
      row1.set i (row1.getD i 0 + rel)
    else row
  else row

/-- Row `i` of the signed matrix: the inner loop folded over `j = 0..n-1`,
starting from the zero row `Array(n).fill(0)`. -/
def buildRow (ts : List (TriangleCoord × Nat)) (i : Nat) : List Rat :=
  (List.range ts.length).foldl (buildRowStep ts i) (List.replicate ts.length 0)

/-- The signed N×N matrix of the double loop in `computeMinorDets` (the inner
loop for index `i` writes only into row `i`, so the outer loop is a map). -/
def buildMatrix (ts : List (TriangleCoord × Nat)) : List (List Rat) :=
  (List.range ts.length).map (buildRow ts)

/-- The source guard `i !== j && areAdjacent(ti.coord, tj.coord)`. -/
def adjAt (ts : List (TriangleCoord × Nat)) (i j : Nat) : Prop :=
  i ≠ j ∧ areAdjacent (ts.getD i default).1 (ts.getD j default).1 = true

instance (ts : List (TriangleCoord × Nat)) (i j : Nat) : Decidable (adjAt ts i j) := by
  unfold adjAt; infer_instance

/-- `relDiff(color_i, color_j)` as a rational matrix entry. -/
def relAt (ts : List (TriangleCoord × Nat)) (i j : Nat) : Rat :=
  ((relativeColorNum (ts.getD i default).2 (ts.getD j default).2 : Int) : Rat)

/-- The diagonal accumulator after the first `m` iterations of the inner loop. -/
def diagTo (ts : List (TriangleCoord × Nat)) (i m : Nat) : Rat :=
  ∑ j ∈ Finset.range m, (if adjAt ts i j then relAt ts i j else 0)

lemma getD_set_rat (l : List Rat) (j pos : Nat) (v : Rat) :
    (l.set j v).getD pos 0 = if j = pos ∧ j < l.length then v else l.getD pos 0 := by
  simp only [List.getD_eq_getElem?_getD, List.getElem?_set]
  split
  · rename_i h
    subst h
    by_cases hj : j < l.length
    · simp [hj]
    · simp [hj, List.getElem?_eq_none (le_of_not_lt hj)]
  · rename_i h
    simp [h]

lemma buildRowStep_length (ts : List (TriangleCoord × Nat)) (i : Nat) (row : List Rat)
    (j : Nat) : (buildRowStep ts i row j).length = row.length := by
  unfold buildRowStep
  split
  · dsimp only
    split
    · simp
    · rfl
  · rfl

lemma buildRow_fold_spec (ts : List (TriangleCoord × Nat)) (i : Nat)
    (hi : i < ts.length) (m : Nat) (hm : m ≤ ts.length) :
    ((List.range m).foldl (buildRowStep ts i) (List.replicate ts.length 0)).length
      = ts.length ∧
    ∀ pos, pos < ts.length →
      ((List.range m).foldl (buildRowStep ts i) (List.replicate ts.length 0)).getD pos 0 =
        if pos = i then diagTo ts i m
        else if pos < m ∧ adjAt ts i pos then -(relAt ts i pos) else 0 := by
  induction m with
  | zero =>
    refine ⟨by simp, fun pos hpos => ?_⟩
    simp only [List.range_zero, List.foldl_nil]
    rw [List.getD_eq_getElem _ _ (by simpa using hpos), List.getElem_replicate]
    simp [diagTo]
  | succ m ih =>
    have hm' : m ≤ ts.length := Nat.le_of_succ_le hm
    have hmn : m < ts.length := hm
    obtain ⟨ihlen, ihget⟩ := ih hm'
    rw [List.range_succ, List.foldl_concat]
    set P := (List.range m).foldl (buildRowStep ts i) (List.replicate ts.length 0) with hP
    refine ⟨by rw [buildRowStep_length, ihlen], fun pos hpos => ?_⟩
    by_cases him : i = m
    · -- the `i !== j` guard fails: row unchanged this iteration
      have : buildRowStep ts i P m = P := by
        unfold buildRowStep
        simp [him]
      rw [this, ihget pos hpos]
      have hdiag : diagTo ts i (m + 1) = diagTo ts i m := by
        unfold diagTo
        rw [Finset.sum_range_succ]
        have : ¬ adjAt ts i m := fun h => h.1 him
        simp [this]
      by_cases hpi : pos = i
      · simp [hpi, hdiag]
      · have : (pos < m + 1 ∧ adjAt ts i pos) ↔ (pos < m ∧ adjAt ts i pos) := by
          constructor
          · rintro ⟨h1, h2⟩
            refine ⟨?_, h2⟩
            rcases Nat.lt_succ_iff_lt_or_eq.mp h1 with h | h
            · exact h
            · exact absurd (h.trans him.symm) hpi
          · exact fun ⟨h1, h2⟩ => ⟨Nat.lt_succ_of_lt h1, h2⟩
        simp only [if_neg hpi, this]
    · -- the guard `i !== j` holds
      by_cases hadj : areAdjacent (ts.getD i default).1 (ts.getD m default).1 = true
      · have hstep : buildRowStep ts i P m =
            (P.set m (-(relAt ts i m))).set i
              ((P.set m (-(relAt ts i m))).getD i 0 + relAt ts i m) := by
          unfold buildRowStep
          rw [if_pos him, if_pos hadj]
          rfl
        have hAdjim : adjAt ts i m := ⟨him, hadj⟩
        rw [hstep]
        have hlen1 : (P.set m (-(relAt ts i m))).length = ts.length := by
          rw [List.length_set, ihlen]
        by_cases hpi : pos = i
        · rw [getD_set_rat, if_pos ⟨hpi.symm, by rw [hlen1]; exact hi⟩,
            getD_set_rat, if_neg (fun h => him (h.1.symm)), ihget i hi,
            if_pos rfl, if_pos hpi]
          unfold diagTo
          rw [Finset.sum_range_succ, if_pos hAdjim]
        · rw [getD_set_rat, if_neg (fun h => hpi h.1.symm), getD_set_rat, ihlen]
          by_cases hpm : pos = m
          · subst hpm
            rw [if_pos ⟨rfl, hmn⟩, if_neg hpi, if_pos ⟨Nat.lt_succ_self pos, hAdjim⟩]
          · rw [if_neg (fun h => hpm h.1.symm), ihget pos hpos, if_neg hpi,
              if_neg hpi]
            have : (pos < m + 1 ∧ adjAt ts i pos) ↔ (pos < m ∧ adjAt ts i pos) := by
              constructor
              · rintro ⟨h1, h2⟩
                exact ⟨by omega, h2⟩
              · exact fun ⟨h1, h2⟩ => ⟨Nat.lt_succ_of_lt h1, h2⟩
            rw [if_congr this rfl rfl]
      · have hnAdj : ¬ adjAt ts i m := fun h => hadj h.2
        have hstep : buildRowStep ts i P m = P := by
          unfold buildRowStep
          rw [if_pos him, if_neg hadj]
        rw [hstep, ihget pos hpos]
        have hdiag : diagTo ts i (m + 1) = diagTo ts i m := by
          unfold diagTo
          rw [Finset.sum_range_succ, if_neg hnAdj, add_zero]
        by_cases hpi : pos = i
        · simp [hpi, hdiag]
        · rw [if_neg hpi, if_neg hpi]
          by_cases hpm : pos = m
          · subst hpm
            rw [if_neg (fun h => hnAdj h.2), if_neg (fun h => hnAdj h.2)]
          · have : (pos < m + 1 ∧ adjAt ts i pos) ↔ (pos < m ∧ adjAt ts i pos) := by
              constructor
              · rintro ⟨h1, h2⟩
                exact ⟨by omega, h2⟩
              · exact fun ⟨h1, h2⟩ => ⟨Nat.lt_succ_of_lt h1, h2⟩
            rw [if_congr this rfl rfl]

lemma list_sum_getD (l : List Rat) : l.sum = ∑ j ∈ Finset.range l.length, l.getD j 0 := by
  induction l with
  | nil => simp
  | cons a t ih =>
    rw [List.sum_cons, List.length_cons, Finset.sum_range_succ']
    simp only [List.getD_cons_succ, List.getD_cons_zero]
    rw [ih, add_comm]

lemma buildMatrix_getD (ts : List (TriangleCoord × Nat)) (i : Nat) (hi : i < ts.length) :
    (buildMatrix ts).getD i [] = buildRow ts i := by
  unfold buildMatrix
  rw [List.getD_eq_getElem _ _ (by simpa using hi), List.getElem_map, List.getElem_range]

lemma buildRow_getD (ts : List (TriangleCoord × Nat)) (i : Nat) (hi : i < ts.length)
    (pos : Nat) (hpos : pos < ts.length) :
    (buildRow ts i).getD pos 0 =
      if pos = i then diagTo ts i ts.length
      else if adjAt ts i pos then -(relAt ts i pos) else 0 := by
  have h := (buildRow_fold_spec ts i hi ts.length le_rfl).2 pos hpos
  unfold buildRow
  rw [h]
  by_cases hpi : pos = i
  · simp [hpi]
  · rw [if_neg hpi, if_neg hpi,
      if_congr (show (pos < ts.length ∧ adjAt ts i pos) ↔ adjAt ts i pos by
        exact ⟨fun h => h.2, fun h => ⟨hpos, h⟩⟩) rfl rfl]

lemma buildRow_length (ts : List (TriangleCoord × Nat)) (i : Nat) (hi : i < ts.length) :
    (buildRow ts i).length = ts.length :=
  (buildRow_fold_spec ts i hi ts.length le_rfl).1

-- ## C4: every row of the signed matrix sums to zero, with the stated entries

/-- C4: for every ordered list of colored cells, row `i` of the signed
matrix sums to exactly 0, each off-diagonal entry `M[i][j]` is
`−relDiff(color_i, color_j)` when cells `i`, `j` are adjacent and 0 otherwise,
and the diagonal entry `M[i][i]` is the sum of `relDiff(color_i, color_j)`
over all `j` adjacent to `i`. -/
theorem buildMatrix_row_sum_zero_and_entries (ts : List (TriangleCoord × Nat))
    (i : Nat) (hi : i < ts.length) :
    ((buildMatrix ts).getD i []).sum = 0 ∧
    (∀ j, j < ts.length → j ≠ i →
      get2 (buildMatrix ts) i j =
        if areAdjacent (ts.getD i default).1 (ts.getD j default).1
        then -(relAt ts i j) else 0) ∧
    get2 (buildMatrix ts) i i =
      ∑ j ∈ Finset.range ts.length, (if adjAt ts i j then relAt ts i j else 0) := by
  rw [buildMatrix_getD ts i hi]
  refine ⟨?_, fun j hj hji => ?_, ?_⟩
  · rw [list_sum_getD, buildRow_length ts i hi]
    have hsplit : ∀ pos ∈ Finset.range ts.length,
        (buildRow ts i).getD pos 0 =
          (if adjAt ts i pos then -(relAt ts i pos) else 0) +
            (if pos = i then diagTo ts i ts.length else 0) := by
      intro pos hpos
      rw [buildRow_getD ts i hi pos (Finset.mem_range.mp hpos)]
      by_cases hpi : pos = i
      · have hni : ¬ adjAt ts i i := fun h => h.1 rfl
        simp [hpi, hni]
      · simp [hpi]
    rw [Finset.sum_congr rfl hsplit, Finset.sum_add_distrib]
    have h1 : ∑ pos ∈ Finset.range ts.length,
        (if adjAt ts i pos then -(relAt ts i pos) else 0) =
        -(diagTo ts i ts.length) := by
      unfold diagTo
      rw [← Finset.sum_neg_distrib]
      refine Finset.sum_congr rfl fun pos _ => ?_
      split <;> simp
    have h2 : ∑ pos ∈ Finset.range ts.length,
        (if pos = i then diagTo ts i ts.length else 0) = diagTo ts i ts.length := by
      rw [Finset.sum_ite_eq' (Finset.range ts.length) i
        (fun _ => diagTo ts i ts.length), if_pos (Finset.mem_range.mpr hi)]
    rw [h1, h2, neg_add_cancel]
  · unfold get2
    rw [buildMatrix_getD ts i hi, buildRow_getD ts i hi j hj, if_neg hji]
    by_cases hadj : areAdjacent (ts.getD i default).1 (ts.getD j default).1 = true
    · rw [if_pos ⟨fun h => hji h.symm, hadj⟩, if_pos hadj]
    · rw [if_neg (fun h => hadj h.2), if_neg hadj]
  · unfold get2
    rw [buildMatrix_getD ts i hi, buildRow_getD ts i hi i hi, if_pos rfl]
    rfl

/-- Witness for C4 at the two-cell scenario of the spec (up cell at (0,0)
colored white, down cell at (1,0) colored black). -/
theorem buildMatrix_row_sum_zero_and_entries_witness :
    0 < ([(⟨0, 0, true⟩, 1), (⟨1, 0, false⟩, 2)] : List (TriangleCoord × Nat)).length ∧
    (((buildMatrix [(⟨0, 0, true⟩, 1), (⟨1, 0, false⟩, 2)]).getD 0 []).sum = 0 ∧
    (∀ j, j < ([(⟨0, 0, true⟩, 1), (⟨1, 0, false⟩, 2)] : List (TriangleCoord × Nat)).length →
      j ≠ 0 →
      get2 (buildMatrix [(⟨0, 0, true⟩, 1), (⟨1, 0, false⟩, 2)]) 0 j =
        if areAdjacent (([(⟨0, 0, true⟩, 1), (⟨1, 0, false⟩, 2)] :
            List (TriangleCoord × Nat)).getD 0 default).1
          (([(⟨0, 0, true⟩, 1), (⟨1, 0, false⟩, 2)] :
            List (TriangleCoord × Nat)).getD j default).1
        then -(relAt [(⟨0, 0, true⟩, 1), (⟨1, 0, false⟩, 2)] 0 j) else 0) ∧
    get2 (buildMatrix [(⟨0, 0, true⟩, 1), (⟨1, 0, false⟩, 2)]) 0 0 =
      ∑ j ∈ Finset.range ([(⟨0, 0, true⟩, 1), (⟨1, 0, false⟩, 2)] :
          List (TriangleCoord × Nat)).length,
        (if adjAt [(⟨0, 0, true⟩, 1), (⟨1, 0, false⟩, 2)] 0 j
         then relAt [(⟨0, 0, true⟩, 1), (⟨1, 0, false⟩, 2)] 0 j else 0)) :=
  ⟨by decide,
   buildMatrix_row_sum_zero_and_entries [(⟨0, 0, true⟩, 1), (⟨1, 0, false⟩, 2)] 0
     (by decide)⟩

-- ## MinorEvaluator (`computeMinorDets` and the pass predicate)

/-- The index-filter idiom `arr.filter((_, idx) => idx !== i)` deleting
position `i`. -/
def removeIdx {α : Type} (l : List α) (i : Nat) : List α :=
  (l.enum.filter (fun p => p.1 ≠ i)).map Prod.snd

/-- The principal minor: `mat.filter((_, ri) => ri !== i).map(row =>
row.filter((_, ci) => ci !== i))`. -/
def minorAt (m : List (List Rat)) (i : Nat) : List (List Rat) :=
  (removeIdx m i).map (fun row => removeIdx row i)

lemma buildMatrix_length (ts : List (TriangleCoord × Nat)) :
    (buildMatrix ts).length = ts.length := by
  simp [buildMatrix]

/-- Embeds `computeMinorDets(colorMap)`: collect colored cells; if `n <= 1`
return `[]`; else build the signed matrix and return all principal-minor
determinants with their indices. -/
def computeMinorDets (cm : Coloring) : List (Nat × Rat) :=
  if (coloredCellsOf cm).length ≤ 1 then []
  else
    (List.range (buildMatrix (coloredCellsOf cm)).length).map
      (fun i => (i, determinant (minorAt (buildMatrix (coloredCellsOf cm)) i)))

/-- The acceptance test `dets.length > 0 && dets.every(d => Math.abs(d.det) >
0.0001)` used by both search modes. -/
def allNonZero (dets : List (Nat × Rat)) : Bool :=
  decide (0 < dets.length) && dets.all (fun d => decide (1 / 10 ^ 4 < |d.2|))

-- ## C1: the pass predicate is exactly (N >= 2 and all |minors| > 1e-4)

lemma allNonZero_map_range_iff (n : Nat) (g : Nat → Rat) :
    allNonZero ((List.range n).map (fun i => (i, g i))) = true ↔
      0 < n ∧ ∀ i, i < n → 1 / 10 ^ 4 < |g i| := by
  rw [allNonZero, Bool.and_eq_true, List.all_eq_true]
  simp only [decide_eq_true_eq, List.length_map, List.length_range]
  constructor
  · rintro ⟨h0, hall⟩
    exact ⟨h0, fun i hi =>
      hall (i, g i) (List.mem_map_of_mem _ (List.mem_range.mpr hi))⟩
  · rintro ⟨h0, hall⟩
    refine ⟨h0, fun d hd => ?_⟩
    obtain ⟨j, hj, rfl⟩ := List.mem_map.mp hd
    exact hall j (List.mem_range.mp hj)

/-- C1: a candidate passes iff it has at least 2 colored cells and every
principal minor of its signed matrix has absolute value above `1e-4`; with
at most one colored cell the minor list is empty and the candidate never
passes, for any color assignment. -/
theorem allNonZero_computeMinorDets_iff (cm : Coloring) :
    (allNonZero (computeMinorDets cm) = true ↔
      2 ≤ (coloredCellsOf cm).length ∧
      ∀ i, i < (coloredCellsOf cm).length →
        1 / 10 ^ 4 < |determinant (minorAt (buildMatrix (coloredCellsOf cm)) i)|) ∧
    ((coloredCellsOf cm).length ≤ 1 →
      computeMinorDets cm = [] ∧ allNonZero (computeMinorDets cm) = false) := by
  constructor
  · by_cases hn : (coloredCellsOf cm).length ≤ 1
    · rw [computeMinorDets, if_pos hn]
      constructor
      · intro h
        exact absurd h (by rw [allNonZero]; simp)
      · rintro ⟨h2, -⟩
        omega
    · rw [computeMinorDets, if_neg hn, buildMatrix_length]
      refine (allNonZero_map_range_iff _ _).trans ?_
      constructor
      · rintro ⟨h0, hall⟩
        exact ⟨by omega, hall⟩
      · rintro ⟨h2, hall⟩
        exact ⟨by omega, hall⟩
  · intro hn
    rw [computeMinorDets, if_pos hn]
    exact ⟨rfl, by rw [allNonZero]; simp⟩

/-- Witness for C1: a singleton coloring (one white up-triangle) has an empty
minor list and is rejected. -/
theorem allNonZero_computeMinorDets_iff_witness :
    (allNonZero (computeMinorDets [(⟨0, 0, true⟩, 1)]) = true ↔
      2 ≤ (coloredCellsOf [(⟨0, 0, true⟩, 1)]).length ∧
      ∀ i, i < (coloredCellsOf [(⟨0, 0, true⟩, 1)]).length →
        1 / 10 ^ 4 <
          |determinant (minorAt (buildMatrix (coloredCellsOf [(⟨0, 0, true⟩, 1)])) i)|) ∧
    ((coloredCellsOf [(⟨0, 0, true⟩, 1)]).length ≤ 1 →
      computeMinorDets [(⟨0, 0, true⟩, 1)] = [] ∧
      allNonZero (computeMinorDets [(⟨0, 0, true⟩, 1)]) = false) :=
  allNonZero_computeMinorDets_iff [(⟨0, 0, true⟩, 1)]

-- ## ComponentCounter (`computeConnectedComponents`, stack-based flood fill)

/-- Per-color connected-component counts `{white, black, gray}`. -/
structure CompCounts where
  white : Nat
  black : Nat
  gray : Nat
deriving DecidableEq, Repr

/-- The explicit neighbor list used inside the dfs of
`computeConnectedComponents`. -/
def neighborsOf (c : TriangleCoord) : List TriangleCoord :=
  if c.isUp then
    [⟨c.x - 1, c.y, false⟩, ⟨c.x + 1, c.y, false⟩, ⟨c.x, c.y - 1, false⟩]
  else
    [⟨c.x - 1, c.y, true⟩, ⟨c.x + 1, c.y, true⟩, ⟨c.x, c.y + 1, true⟩]

lemma neighborsOf_length (c : TriangleCoord) : (neighborsOf c).length = 3 := by
  unfold neighborsOf
  split <;> rfl

/-- The key set of the color map. -/
def keysFinset (cm : Coloring) : Finset TriangleCoord :=
  (cm.map Prod.fst).toFinset

/-- The `while (stack.length > 0)` loop of the dfs: pop a key; skip it if
already visited or not of the target color; otherwise mark it and push its
unvisited same-colored neighbors (`Array.pop` takes the tail end, so the
list head models the top of the stack and a batch push is a reversed
prepend). -/
def dfsLoop (cm : Coloring) (target : Nat) (stack : List TriangleCoord)
    (visited : Finset TriangleCoord) : Finset TriangleCoord :=
  match stack with
  | [] => visited
  | key :: rest =>
    if key ∈ visited then dfsLoop cm target rest visited
    else
      match hcol : mapGet cm key with
      | none => dfsLoop cm target rest visited
      | some c =>
        if c ≠ target then dfsLoop cm target rest visited
        else
          let visited' := insert key visited
          let pushed := (neighborsOf key).filter
            (fun nb => nb ∉ visited' ∧ mapGet cm nb = some target)
          dfsLoop cm target (pushed.reverse ++ rest) visited'
termination_by 4 * ((keysFinset cm) \ visited).card + stack.length
decreasing_by
  all_goals first
    | (simp only [List.length_cons]; omega)
    | (simp only [List.length_cons, List.length_append, List.length_reverse]
       rename_i hvis hct
       have hkey : key ∈ keysFinset cm := by
         unfold keysFinset
         rw [List.mem_toFinset]
         unfold mapGet at hcol
         rcases hfind : cm.find? (fun p => p.1 = key) with - | p
         · rw [hfind] at hcol
           exact absurd hcol (by simp)
         · have h1 := List.find?_some hfind
           have hmem := List.mem_of_find?_eq_some hfind
           have h2 : p.1 = key := of_decide_eq_true h1
           exact h2 ▸ List.mem_map_of_mem Prod.fst hmem
       have hmem' : key ∈ (keysFinset cm) \ visited := Finset.mem_sdiff.mpr ⟨hkey, hvis⟩
       have hcard : ((keysFinset cm) \ insert key visited).card + 1
           = ((keysFinset cm) \ visited).card := by
         rw [Finset.sdiff_insert, Finset.card_erase_of_mem hmem']
         have hpos : 0 < ((keysFinset cm) \ visited).card :=
           Finset.card_pos.mpr ⟨key, hmem'⟩
         omega
       have hpush : ((neighborsOf key).filter
           (fun nb => nb ∉ insert key visited ∧ mapGet cm nb = some target)).length ≤ 3 := by
         calc ((neighborsOf key).filter _).length ≤ (neighborsOf key).length :=
               List.length_filter_le _ _
           _ = 3 := neighborsOf_length key
       omega)

/-- One iteration of the `for ([key, color] of colorMap)` loop: skip
transparent or already-visited entries, otherwise flood the component and
bump that color's counter. -/
def ccStep (cm : Coloring) (st : Finset TriangleCoord × CompCounts)
    (e : TriangleCoord × Nat) : Finset TriangleCoord × CompCounts :=
  if e.2 = 0 ∨ e.1 ∈ st.1 then st
  else
    let visited' := dfsLoop cm e.2 [e.1] st.1
    let c := st.2
    let counts :=
      if e.2 = 1 then { c with white := c.white + 1 }
      else if e.2 = 2 then { c with black := c.black + 1 }
      else if e.2 = 3 then { c with gray := c.gray + 1 }
      else c
    (visited', counts)

/-- Embeds `computeConnectedComponents(colorMap)`. -/
def computeConnectedComponents (cm : Coloring) : CompCounts :=
  (cm.foldl (ccStep cm) (∅, ⟨0, 0, 0⟩)).2

/-- Embeds `computePriorityScore(connected)`: the product W × B × G. -/
def computePriorityScore (connected : CompCounts) : Nat :=
  connected.white * connected.black * connected.gray

-- ## SearchController data and exhaustive enumeration

/-- Embeds `indexToColors(index, targetShape)`: walk the shape in order,
give cell `i` the color `remaining % 3 + 1` and divide `remaining` by 3. -/
def indexToColors (index : Nat) (targetShape : List TriangleCoord) : Coloring :=
  (targetShape.foldl
    (fun acc coord => (mapSet acc.1 coord (acc.2 % 3 + 1), acc.2 / 3))
    (([] : Coloring), index)).1

/-- The first `n` base-3 digits of `idx` (least significant first), each
shifted by one into color range `{1, 2, 3}`. -/
def digitsList : Nat → Nat → List Nat
  | 0, _ => []
  | n + 1, idx => (idx % 3 + 1) :: digitsList n (idx / 3)

/-- Embeds the record pushed into `results` (part_000 `foundResults` entry). -/
structure SearchResult where
  colors : Coloring
  dets : List (Nat × Rat)
  attempt : Nat
  connected : CompCounts
deriving DecidableEq, Repr

/-- The body of the exhaustive batch loop for one index: test the coloring,
and on pass append a result with `attempt = index + 1`. -/
def exhaustiveBody (shape : List TriangleCoord) (results : List SearchResult)
    (idx : Nat) : List SearchResult :=
  let testColors := indexToColors idx shape
  let dets := computeMinorDets testColors
  if allNonZero dets then
    results ++ [{ colors := testColors, dets := dets, attempt := idx + 1,
                  connected := computeConnectedComponents testColors }]
  else results

/-- Exhaustive mode over all `3^N` indices in order 0, 1, 2, …: the
`requestAnimationFrame` batching only splits this sequence into chunks of
1000 for progress reporting, so the accumulated result list is this fold. -/
def exhaustiveResults (shape : List TriangleCoord) : List SearchResult :=
  (List.range (3 ^ shape.length)).foldl (exhaustiveBody shape) []

-- basic Map-model lemmas

lemma mapSet_of_not_mem (m : Coloring) (k : TriangleCoord) (v : Nat)
    (h : k ∉ mapKeys m) : mapSet m k v = m ++ [(k, v)] := by
  unfold mapSet
  rw [if_neg]
  intro hany
  obtain ⟨p, hp, hpk⟩ := List.any_eq_true.mp hany
  exact h (List.mem_map.mpr ⟨p, hp, of_decide_eq_true hpk⟩)

lemma mapKeys_append (m m' : Coloring) : mapKeys (m ++ m') = mapKeys m ++ mapKeys m' := by
  unfold mapKeys
  exact List.map_append Prod.fst m m'

lemma mapGet_cons (a : TriangleCoord × Nat) (m : Coloring) (k : TriangleCoord) :
    mapGet (a :: m) k = if a.1 = k then some a.2 else mapGet m k := by
  unfold mapGet
  by_cases h : a.1 = k
  · rw [List.find?_cons_of_pos _ (by simpa using h), if_pos h]
  · rw [List.find?_cons_of_neg _ (by simpa using h), if_neg h]

-- digits lemmas

lemma digitsList_length (n idx : Nat) : (digitsList n idx).length = n := by
  induction n generalizing idx with
  | zero => rfl
  | succ n ih => simp [digitsList, ih]

lemma digitsList_getD (n : Nat) : ∀ idx k, k < n →
    (digitsList n idx).getD k 0 = idx / 3 ^ k % 3 + 1 := by
  induction n with
  | zero => intro idx k hk; omega
  | succ n ih =>
    intro idx k hk
    cases k with
    | zero => simp [digitsList]
    | succ k =>
      rw [digitsList, List.getD_cons_succ, ih (idx / 3) k (by omega),
        Nat.div_div_eq_div_mul]
      rw [pow_succ']

lemma digitsList_inj (n : Nat) : ∀ i j, i < 3 ^ n → j < 3 ^ n →
    digitsList n i = digitsList n j → i = j := by
  induction n with
  | zero =>
    intro i j hi hj _
    simp only [pow_zero] at hi hj
    omega
  | succ n ih =>
    intro i j hi hj heq
    rw [digitsList, digitsList] at heq
    have h1 : i % 3 + 1 = j % 3 + 1 := (List.cons.injEq _ _ _ _).mp heq |>.1
    have h2 : digitsList n (i / 3) = digitsList n (j / 3) :=
      (List.cons.injEq _ _ _ _).mp heq |>.2
    have hdiv : i / 3 = j / 3 := by
      refine ih _ _ ?_ ?_ h2
      · rw [Nat.div_lt_iff_lt_mul (by omega)]
        calc i < 3 ^ (n + 1) := hi
          _ = 3 ^ n * 3 := by rw [pow_succ]
      · rw [Nat.div_lt_iff_lt_mul (by omega)]
        calc j < 3 ^ (n + 1) := hj
          _ = 3 ^ n * 3 := by rw [pow_succ]
    omega

lemma digitsList_surj : ∀ cs : List Nat, (∀ c ∈ cs, 1 ≤ c ∧ c ≤ 3) →
    ∃ idx, idx < 3 ^ cs.length ∧ digitsList cs.length idx = cs := by
  intro cs
  induction cs with
  | nil => exact fun _ => ⟨0, by simp, rfl⟩
  | cons c t ih =>
    intro hall
    obtain ⟨idx', hlt', heq'⟩ := ih (fun x hx => hall x (List.mem_cons_of_mem c hx))
    obtain ⟨hc1, hc3⟩ := hall c (List.mem_cons_self c t)
    refine ⟨(c - 1) + 3 * idx', ?_, ?_⟩
    · have : 3 ^ (c :: t).length = 3 ^ t.length * 3 := by
        rw [List.length_cons, pow_succ]
      omega
    · rw [List.length_cons, digitsList]
      have hmod : ((c - 1) + 3 * idx') % 3 = c - 1 := by omega
      have hdiv : ((c - 1) + 3 * idx') / 3 = idx' := by omega
      rw [hmod, hdiv, heq']
      congr 1
      omega

lemma foldl_mapSet_zip (shape : List TriangleCoord) :
    ∀ (acc : Coloring) (idx : Nat),
      shape.Nodup → (∀ c ∈ shape, c ∉ mapKeys acc) →
      (shape.foldl (fun s coord => (mapSet s.1 coord (s.2 % 3 + 1), s.2 / 3))
          (acc, idx)).1
        = acc ++ shape.zip (digitsList shape.length idx) := by
  induction shape with
  | nil =>
    intro acc idx _ _
    simp [digitsList]
  | cons c cs ih =>
    intro acc idx hnd hdisj
    rw [List.foldl_cons]
    have hc : c ∉ mapKeys acc := hdisj c (List.mem_cons_self c cs)
    have hset : mapSet acc c (idx % 3 + 1) = acc ++ [(c, idx % 3 + 1)] :=
      mapSet_of_not_mem acc c _ hc
    dsimp only
    rw [hset, ih (acc ++ [(c, idx % 3 + 1)]) (idx / 3) (List.Nodup.of_cons hnd) ?_]
    · rw [List.length_cons, digitsList, List.zip_cons_cons, List.append_assoc,
        List.singleton_append]
    · intro c' hc'
      rw [mapKeys_append, List.mem_append]
      rintro (h | h)
      · exact hdisj c' (List.mem_cons_of_mem c hc') h
      · have : c' = c := by simpa [mapKeys] using h
        rw [List.nodup_cons] at hnd
        exact hnd.1 (this ▸ hc')

lemma indexToColors_eq_zip (shape : List TriangleCoord) (hnd : shape.Nodup)
    (idx : Nat) :
    indexToColors idx shape = shape.zip (digitsList shape.length idx) := by
  unfold indexToColors
  rw [foldl_mapSet_zip shape [] idx hnd (by intro c _; simp [mapKeys])]
  rw [List.nil_append]

lemma mapGet_zip_get (shape : List TriangleCoord) :
    ∀ (ds : List Nat), shape.Nodup → ds.length = shape.length →
    ∀ k (hk : k < shape.length),
      mapGet (shape.zip ds) (shape.get ⟨k, hk⟩) = some (ds.getD k 0) := by
  induction shape with
  | nil =>
    intro ds _ _ k hk
    exact absurd hk (by simp)
  | cons c cs ih =>
    intro ds hnd hlen k hk
    rcases ds with - | ⟨d, ds'⟩
    · simp at hlen
    · rw [List.zip_cons_cons]
      cases k with
      | zero =>
        rw [mapGet_cons]
        simp
      | succ k =>
        rw [mapGet_cons]
        have hkey : (c :: cs).get ⟨k + 1, hk⟩ = cs.get ⟨k, by simpa using hk⟩ := rfl
        rw [hkey]
        have hne : c ≠ cs.get ⟨k, by simpa using hk⟩ := by
          intro h
          rw [List.nodup_cons] at hnd
          exact hnd.1 (h ▸ List.get_mem cs k _)
        rw [if_neg hne, List.getD_cons_succ]
        exact ih ds' (List.Nodup.of_cons hnd) (by simpa using hlen) k (by simpa using hk)

lemma zip_right_cancel (shape : List TriangleCoord) :
    ∀ ds ds' : List Nat, ds.length = shape.length → ds'.length = shape.length →
      shape.zip ds = shape.zip ds' → ds = ds' := by
  induction shape with
  | nil =>
    intro ds ds' h h' _
    rw [List.length_nil] at h h'
    rw [List.length_eq_zero.mp h, List.length_eq_zero.mp h']
  | cons c cs ih =>
    intro ds ds' h h'
    rcases ds with - | ⟨d, t⟩
    · simp at h
    rcases ds' with - | ⟨d', t'⟩
    · simp at h'
    rw [List.zip_cons_cons, List.zip_cons_cons]
    intro heq
    have h1 := (List.cons.injEq _ _ _ _).mp heq
    have hd : d = d' := (Prod.mk.injEq _ _ _ _).mp h1.1 |>.2
    have ht : t = t' := ih t t' (by simpa using h) (by simpa using h') h1.2
    rw [hd, ht]

lemma foldl_append_filterMap {α β : Type} (p : α → Bool) (f : α → β) (l : List α) :
    ∀ init : List β,
      l.foldl (fun rs x => if p x then rs ++ [f x] else rs) init =
        init ++ (l.filter p).map f := by
  induction l with
  | nil => intro init; simp
  | cons x t ih =>
    intro init
    rw [List.foldl_cons, ih]
    by_cases hx : p x
    · rw [if_pos hx, List.filter_cons_of_pos hx, List.map_cons,
        List.append_assoc, List.singleton_append]
    · rw [if_neg hx, List.filter_cons_of_neg hx]

lemma exhaustiveResults_eq (shape : List TriangleCoord) :
    exhaustiveResults shape =
      ((List.range (3 ^ shape.length)).filter
          (fun idx => allNonZero (computeMinorDets (indexToColors idx shape)))).map
        (fun idx =>
          { colors := indexToColors idx shape,
            dets := computeMinorDets (indexToColors idx shape),
            attempt := idx + 1,
            connected := computeConnectedComponents (indexToColors idx shape) }) :=
  foldl_append_filterMap _ _ _ []

-- ## C2: exhaustive enumeration is bijective with [0, 3^N)

/-- C2: over a duplicate-free shape, `indexToColors` realises the base-3
bijection between `[0, 3^N)` and full colorings — cell `k` receives digit `k`
(least significant first) plus one; distinct indices give distinct colorings;
the enumeration visits no coloring twice and omits no full coloring; and the
exhaustive fold records exactly the passing indices, each with
`attempt = index + 1`. -/
theorem exhaustive_enumeration_bijective (shape : List TriangleCoord)
    (hnd : shape.Nodup) :
    (∀ idx k (hk : k < shape.length),
      mapGet (indexToColors idx shape) (shape.get ⟨k, hk⟩)
        = some (idx / 3 ^ k % 3 + 1)) ∧
    (∀ i j, i < 3 ^ shape.length → j < 3 ^ shape.length →
      indexToColors i shape = indexToColors j shape → i = j) ∧
    ((List.range (3 ^ shape.length)).map (fun idx => indexToColors idx shape)).Nodup ∧
    (∀ cs : List Nat, cs.length = shape.length → (∀ c ∈ cs, 1 ≤ c ∧ c ≤ 3) →
      shape.zip cs ∈
        (List.range (3 ^ shape.length)).map (fun idx => indexToColors idx shape)) ∧
    exhaustiveResults shape =
      ((List.range (3 ^ shape.length)).filter
          (fun idx => allNonZero (computeMinorDets (indexToColors idx shape)))).map
        (fun idx =>
          { colors := indexToColors idx shape,
            dets := computeMinorDets (indexToColors idx shape),
            attempt := idx + 1,
            connected := computeConnectedComponents (indexToColors idx shape) }) := by
  have hinj : ∀ i j, i < 3 ^ shape.length → j < 3 ^ shape.length →
      indexToColors i shape = indexToColors j shape → i = j := by
    intro i j hi hj heq
    rw [indexToColors_eq_zip shape hnd i, indexToColors_eq_zip shape hnd j] at heq
    exact digitsList_inj shape.length i j hi hj
      (zip_right_cancel shape _ _ (digitsList_length _ _) (digitsList_length _ _) heq)
  refine ⟨?_, hinj, ?_, ?_, exhaustiveResults_eq shape⟩
  · intro idx k hk
    rw [indexToColors_eq_zip shape hnd idx,
      mapGet_zip_get shape _ hnd (digitsList_length _ _) k hk,
      digitsList_getD shape.length idx k hk]
  · refine List.Nodup.map_on ?_ (List.nodup_range _)
    intro i hi j hj heq
    exact hinj i j (List.mem_range.mp hi) (List.mem_range.mp hj) heq
  · intro cs hlen hall
    obtain ⟨idx, hlt, hdig⟩ := digitsList_surj cs hall
    rw [hlen] at hlt hdig
    refine List.mem_map.mpr ⟨idx, List.mem_range.mpr hlt, ?_⟩
    rw [indexToColors_eq_zip shape hnd idx, hdig]

/-- Witness for C2 at the two-cell shape from the spec scenario. -/
theorem exhaustive_enumeration_bijective_witness :
    ([(⟨0, 0, true⟩ : TriangleCoord), ⟨1, 0, false⟩] : List TriangleCoord).Nodup ∧
    ((∀ idx k (hk : k < ([⟨0, 0, true⟩, ⟨1, 0, false⟩] : List TriangleCoord).length),
      mapGet (indexToColors idx [⟨0, 0, true⟩, ⟨1, 0, false⟩])
          (([⟨0, 0, true⟩, ⟨1, 0, false⟩] : List TriangleCoord).get ⟨k, hk⟩)
        = some (idx / 3 ^ k % 3 + 1)) ∧
    (∀ i j, i < 3 ^ ([⟨0, 0, true⟩, ⟨1, 0, false⟩] : List TriangleCoord).length →
      j < 3 ^ ([⟨0, 0, true⟩, ⟨1, 0, false⟩] : List TriangleCoord).length →
      indexToColors i [⟨0, 0, true⟩, ⟨1, 0, false⟩]
        = indexToColors j [⟨0, 0, true⟩, ⟨1, 0, false⟩] → i = j) ∧
    ((List.range (3 ^ ([⟨0, 0, true⟩, ⟨1, 0, false⟩] : List TriangleCoord).length)).map
        (fun idx => indexToColors idx [⟨0, 0, true⟩, ⟨1, 0, false⟩])).Nodup ∧
    (∀ cs : List Nat,
      cs.length = ([⟨0, 0, true⟩, ⟨1, 0, false⟩] : List TriangleCoord).length →
      (∀ c ∈ cs, 1 ≤ c ∧ c ≤ 3) →
      ([⟨0, 0, true⟩, ⟨1, 0, false⟩] : List TriangleCoord).zip cs ∈
        (List.range (3 ^ ([⟨0, 0, true⟩, ⟨1, 0, false⟩] :
            List TriangleCoord).length)).map
          (fun idx => indexToColors idx [⟨0, 0, true⟩, ⟨1, 0, false⟩])) ∧
    exhaustiveResults [⟨0, 0, true⟩, ⟨1, 0, false⟩] =
      ((List.range (3 ^ ([⟨0, 0, true⟩, ⟨1, 0, false⟩] :
            List TriangleCoord).length)).filter
          (fun idx => allNonZero
            (computeMinorDets (indexToColors idx [⟨0, 0, true⟩, ⟨1, 0, false⟩])))).map
        (fun idx =>
          { colors := indexToColors idx [⟨0, 0, true⟩, ⟨1, 0, false⟩],
            dets := computeMinorDets (indexToColors idx [⟨0, 0, true⟩, ⟨1, 0, false⟩]),
            attempt := idx + 1,
            connected := computeConnectedComponents
              (indexToColors idx [⟨0, 0, true⟩, ⟨1, 0, false⟩]) })) :=
  ⟨by decide, exhaustive_enumeration_bijective [⟨0, 0, true⟩, ⟨1, 0, false⟩] (by decide)⟩

-- ## Randomized draw (`randomizeColors`, part_000 two-argument version)

/-- Embeds `randomizeColors(targetShape, currentColors)`: walk the shape in
order; skip cells whose current color is `undefined` or `0`; give each
remaining cell `Math.floor(Math.random() * 3) + 1`.  The stream of
`Math.floor(Math.random() * 3)` outcomes is supplied as an oracle
`rand : Nat → Nat` (values in `{0, 1, 2}`), consumed one draw per
currently-colored cell. -/
def randomizeColors (rand : Nat → Nat) (targetShape : List TriangleCoord)
    (currentColors : Coloring) : Coloring :=
  (targetShape.foldl
    (fun (acc : Coloring × Nat) coord =>
      match mapGet currentColors coord with
      | none => acc
      | some 0 => acc
      | some _ => (mapSet acc.1 coord (rand acc.2 + 1), acc.2 + 1))
    (([] : Coloring), 0)).1

/-- The source guard `currentColor !== undefined && currentColor !== 0`. -/
def coloredIn (cur : Coloring) (c : TriangleCoord) : Bool :=
  (mapGet cur c).getD 0 ≠ 0

lemma coloredIn_iff (cur : Coloring) (c : TriangleCoord) :
    coloredIn cur c = true ↔ ∃ v, mapGet cur c = some v ∧ v ≠ 0 := by
  unfold coloredIn
  rcases h : mapGet cur c with - | v
  · simp
  · simp

lemma randomizeColors_fold (rand : Nat → Nat) (cur : Coloring)
    (shape : List TriangleCoord) :
    ∀ (acc : Coloring) (ctr : Nat),
      shape.Nodup → (∀ c ∈ shape, c ∉ mapKeys acc) →
      (shape.foldl
        (fun (s : Coloring × Nat) coord =>
          match mapGet cur coord with
          | none => s
          | some 0 => s
          | some _ => (mapSet s.1 coord (rand s.2 + 1), s.2 + 1))
        (acc, ctr)).1
      = acc ++ (List.enumFrom ctr (shape.filter (coloredIn cur))).map
          (fun q => (q.2, rand q.1 + 1)) := by
  induction shape with
  | nil =>
    intro acc ctr _ _
    simp
  | cons c cs ih =>
    intro acc ctr hnd hdisj
    rw [List.foldl_cons]
    have hc : c ∉ mapKeys acc := hdisj c (List.mem_cons_self c cs)
    rcases hcur : mapGet cur c with - | v
    · have hskip : coloredIn cur c = false := by
        unfold coloredIn
        rw [hcur]
        rfl
      rw [List.filter_cons_of_neg (by rw [hskip]; exact Bool.false_ne_true)]
      simp only [hcur]
      exact ih acc ctr (List.Nodup.of_cons hnd)
        (fun c' h' => hdisj c' (List.mem_cons_of_mem c h'))
    · rcases v with - | v
      · have hskip : coloredIn cur c = false := by
          unfold coloredIn
          rw [hcur]
          rfl
        rw [List.filter_cons_of_neg (by rw [hskip]; exact Bool.false_ne_true)]
        simp only [hcur]
        exact ih acc ctr (List.Nodup.of_cons hnd)
          (fun c' h' => hdisj c' (List.mem_cons_of_mem c h'))
      · have hkeep : coloredIn cur c = true := by
          unfold coloredIn
          rw [hcur]
          rfl
        rw [List.filter_cons_of_pos hkeep]
        simp only [hcur]
        rw [mapSet_of_not_mem acc c _ hc]
        rw [ih (acc ++ [(c, rand ctr + 1)]) (ctr + 1) (List.Nodup.of_cons hnd) ?_]
        · rw [List.enumFrom_cons, List.map_cons, List.append_assoc,
            List.singleton_append]
        · intro c' h'
          rw [mapKeys_append, List.mem_append]
          rintro (h | h)
          · exact hdisj c' (List.mem_cons_of_mem c h') h
          · have : c' = c := by simpa [mapKeys] using h
            rw [List.nodup_cons] at hnd
            exact hnd.1 (this ▸ h')

lemma randomizeColors_eq (rand : Nat → Nat) (shape : List TriangleCoord)
    (cur : Coloring) (hnd : shape.Nodup) :
    randomizeColors rand shape cur
      = (List.enumFrom 0 (shape.filter (coloredIn cur))).map
          (fun q => (q.2, rand q.1 + 1)) := by
  unfold randomizeColors
  rw [randomizeColors_fold rand cur shape [] 0 hnd (by intro c _; simp [mapKeys])]
  rw [List.nil_append]

lemma enumFrom_map_eq_zip {α β : Type} (g : Nat → β) (l : List α) :
    ∀ s : Nat, (List.enumFrom s l).map (fun q => (q.2, g q.1))
      = l.zip ((List.range' s l.length).map g) := by
  induction l with
  | nil => intro s; rfl
  | cons a t ih =>
    intro s
    rw [List.enumFrom_cons, List.map_cons, List.length_cons, List.range'_succ,
      List.map_cons, List.zip_cons_cons, ih (s + 1)]

lemma mapGet_some_mem (m : Coloring) (k : TriangleCoord) (v : Nat)
    (h : mapGet m k = some v) : (k, v) ∈ m := by
  unfold mapGet at h
  rcases hfind : m.find? (fun p => p.1 = k) with - | p
  · rw [hfind] at h
    exact absurd h (by simp)
  · rw [hfind] at h
    have hp := List.find?_some hfind
    have hp1 : p.1 = k := of_decide_eq_true hp
    have hp2 : p.2 = v := by
      injection h with h2
    have : (k, v) = p := by
      rw [← hp1, ← hp2]
    exact this ▸ List.mem_of_find?_eq_some hfind

-- ## C6: the randomized draw colors exactly the currently-colored cells

/-- C6: with the random stream modelled as an oracle `rand` with values in
`{0, 1, 2}`, the drawn coloring's domain is exactly the shape cells whose
current color is defined and non-zero; every drawn color lies in `{1, 2, 3}`;
every entry of the drawn map is colored, so the minor evaluation's colored
list is the drawn map itself (uncolored cells never reach matrix construction
or component counting); and every assignment of colors to the colored cells is
realised by some oracle, so each cell's draw is free and independent. -/
theorem randomizeColors_spec (rand : Nat → Nat) (shape : List TriangleCoord)
    (cur : Coloring) (hnd : shape.Nodup) (hrand : ∀ k, rand k < 3) :
    (∀ c, c ∈ mapKeys (randomizeColors rand shape cur) ↔
      (c ∈ shape ∧ ∃ v, mapGet cur c = some v ∧ v ≠ 0)) ∧
    (∀ c v, mapGet (randomizeColors rand shape cur) c = some v →
      v = 1 ∨ v = 2 ∨ v = 3) ∧
    coloredCellsOf (randomizeColors rand shape cur)
      = randomizeColors rand shape cur ∧
    (∀ f : TriangleCoord → Nat, (∀ c, f c < 3) →
      ∃ rand' : Nat → Nat, (∀ k, rand' k < 3) ∧
        ∀ c ∈ mapKeys (randomizeColors rand shape cur),
          mapGet (randomizeColors rand' shape cur) c = some (f c + 1)) := by
  have hzip : ∀ g : Nat → Nat, randomizeColors g shape cur
      = (shape.filter (coloredIn cur)).zip
          ((List.range' 0 (shape.filter (coloredIn cur)).length).map
            (fun i => g i + 1)) := by
    intro g
    rw [randomizeColors_eq g shape cur hnd]
    exact enumFrom_map_eq_zip (fun i => g i + 1) _ 0
  have hlenzip : ∀ g : Nat → Nat,
      ((List.range' 0 (shape.filter (coloredIn cur)).length).map
        (fun i => g i + 1)).length = (shape.filter (coloredIn cur)).length := by
    intro g
    rw [List.length_map, List.length_range']
  have hkeys : mapKeys (randomizeColors rand shape cur)
      = shape.filter (coloredIn cur) := by
    rw [hzip rand]
    exact List.map_fst_zip _ _ (le_of_eq (hlenzip rand).symm)
  refine ⟨?_, ?_, ?_, ?_⟩
  · intro c
    rw [hkeys, List.mem_filter]
    exact and_congr_right (fun _ => coloredIn_iff cur c)
  · intro c v hv
    have hmem := mapGet_some_mem _ c v hv
    rw [hzip rand] at hmem
    have hv2 := (List.of_mem_zip hmem).2
    obtain ⟨i, -, hi⟩ := List.mem_map.mp hv2
    have := hrand i
    omega
  · rw [hzip rand]
    apply List.filter_eq_self.mpr
    intro p hp
    have hp2 := (List.of_mem_zip hp).2
    obtain ⟨i, -, hi⟩ := List.mem_map.mp hp2
    simp only [decide_eq_true_eq]
    omega
  · intro f hf
    refine ⟨fun k => f ((shape.filter (coloredIn cur)).getD k default), fun k => hf _, ?_⟩
    intro c hc
    rw [hkeys] at hc
    obtain ⟨⟨i, hi⟩, hgi⟩ := List.mem_iff_get.mp hc
    rw [hzip, ← hgi]
    rw [mapGet_zip_get _ _ (List.Nodup.filter _ hnd) (hlenzip _) i hi]
    have hget : ((List.range' 0 (shape.filter (coloredIn cur)).length).map
        (fun k => f ((shape.filter (coloredIn cur)).getD k default) + 1)).getD i 0
        = f ((shape.filter (coloredIn cur)).getD i default) + 1 := by
      rw [List.getD_eq_getElem _ _ (by rw [hlenzip]; exact hi), List.getElem_map,
        List.getElem_range']
      simp
    rw [hget, List.getD_eq_getElem _ _ hi]
    rfl

/-- Witness for C6: two-cell shape, one cell currently colored, constant
oracle. -/
theorem randomizeColors_spec_witness :
    ([(⟨0, 0, true⟩ : TriangleCoord), ⟨1, 0, false⟩] : List TriangleCoord).Nodup ∧
    (∀ k, (fun _ : Nat => 0) k < 3) ∧
    ((∀ c, c ∈ mapKeys (randomizeColors (fun _ => 0) [⟨0, 0, true⟩, ⟨1, 0, false⟩]
        [(⟨0, 0, true⟩, 2)]) ↔
      (c ∈ ([⟨0, 0, true⟩, ⟨1, 0, false⟩] : List TriangleCoord) ∧
        ∃ v, mapGet [(⟨0, 0, true⟩, 2)] c = some v ∧ v ≠ 0)) ∧
    (∀ c v, mapGet (randomizeColors (fun _ => 0) [⟨0, 0, true⟩, ⟨1, 0, false⟩]
        [(⟨0, 0, true⟩, 2)]) c = some v → v = 1 ∨ v = 2 ∨ v = 3) ∧
    coloredCellsOf (randomizeColors (fun _ => 0) [⟨0, 0, true⟩, ⟨1, 0, false⟩]
        [(⟨0, 0, true⟩, 2)])
      = randomizeColors (fun _ => 0) [⟨0, 0, true⟩, ⟨1, 0, false⟩]
          [(⟨0, 0, true⟩, 2)] ∧
    (∀ f : TriangleCoord → Nat, (∀ c, f c < 3) →
      ∃ rand' : Nat → Nat, (∀ k, rand' k < 3) ∧
        ∀ c ∈ mapKeys (randomizeColors (fun _ => 0) [⟨0, 0, true⟩, ⟨1, 0, false⟩]
            [(⟨0, 0, true⟩, 2)]),
          mapGet (randomizeColors rand' [⟨0, 0, true⟩, ⟨1, 0, false⟩]
            [(⟨0, 0, true⟩, 2)]) c = some (f c + 1))) :=
  ⟨by decide, fun _ => Nat.zero_lt_succ 2,
   randomizeColors_spec (fun _ => 0) [⟨0, 0, true⟩, ⟨1, 0, false⟩]
     [(⟨0, 0, true⟩, 2)] (by decide) (fun _ => Nat.zero_lt_succ 2)⟩

-- ## Randomized chunk step (`searchStep` of part_000)

/-- The candidate record built in step 1 of the random chunk loop. -/
structure Candidate where
  colors : Coloring
  connected : CompCounts
  priority : Nat
  attempt : Nat
deriving DecidableEq, Repr

/-- Step 1 of `searchStep`: the chunk of generated candidates, where the
`i`-th entry of `draws` is the coloring produced by the `i`-th
`randomizeColors` call and `a0` is the `attempts` counter before the chunk,
so the `i`-th candidate carries `attempt = a0 + i + 1`. -/
def mkCandidates (draws : List Coloring) (a0 : Nat) : List Candidate :=
  draws.enum.map (fun q =>
    { colors := q.2,
      connected := computeConnectedComponents q.2,
      priority := computePriorityScore (computeConnectedComponents q.2),
      attempt := a0 + q.1 + 1 })

/-- The comparator `(a, b) => a.priority - b.priority` as the ordering it
induces. -/
def candLE (a b : Candidate) : Bool := a.priority ≤ b.priority

/-- Step 2: `candidates.sort(...)` — a stable ascending sort by priority
(ES2019 `Array.prototype.sort` is stable; modelled by merge sort). -/
def sortCandidates (cands : List Candidate) : List Candidate :=
  cands.mergeSort candLE

/-- Step 3: evaluate minors over the sorted chunk in order, appending every
pass with the candidate's own (generation-order) attempt number. -/
def searchStepResults (draws : List Coloring) (a0 : Nat)
    (rs0 : List SearchResult) : List SearchResult :=
  (sortCandidates (mkCandidates draws a0)).foldl
    (fun rs cand =>
      if allNonZero (computeMinorDets cand.colors) then
        rs ++ [{ colors := cand.colors, dets := computeMinorDets cand.colors,
                 attempt := cand.attempt, connected := cand.connected }]
      else rs) rs0

-- ## C5: chunks are priority-sorted before evaluation; attempts are
-- generation-order

/-- C5: the priority score is the product of the per-color component counts;
the evaluated chunk is a permutation of the generated chunk sorted ascending
by priority; the chunk step appends exactly the passing candidates of the
sorted chunk, in evaluation order, to the result list; and every appended
result carries the attempt number `a0 + i + 1` of its generation position
`i`, never its post-sort position — with every passing generated candidate
indeed appended. -/
theorem searchStep_sorted_and_attempts (draws : List Coloring) (a0 : Nat)
    (rs0 : List SearchResult) :
    (∀ cc : CompCounts, computePriorityScore cc = cc.white * cc.black * cc.gray) ∧
    List.Pairwise (fun a b : Candidate => a.priority ≤ b.priority)
      (sortCandidates (mkCandidates draws a0)) ∧
    (sortCandidates (mkCandidates draws a0)).Perm (mkCandidates draws a0) ∧
    searchStepResults draws a0 rs0 =
      rs0 ++ ((sortCandidates (mkCandidates draws a0)).filter
          (fun cand => allNonZero (computeMinorDets cand.colors))).map
        (fun cand =>
          { colors := cand.colors, dets := computeMinorDets cand.colors,
            attempt := cand.attempt, connected := cand.connected }) ∧
    (∀ r ∈ searchStepResults draws a0 rs0, r ∈ rs0 ∨
      ∃ i, i < draws.length ∧ r.attempt = a0 + i + 1 ∧ r.colors = draws.getD i [] ∧
        allNonZero (computeMinorDets (draws.getD i [])) = true) ∧
    (∀ i, i < draws.length →
      allNonZero (computeMinorDets (draws.getD i [])) = true →
      ∃ r ∈ searchStepResults draws a0 rs0,
        r.attempt = a0 + i + 1 ∧ r.colors = draws.getD i []) := by
  have hres : searchStepResults draws a0 rs0 =
      rs0 ++ ((sortCandidates (mkCandidates draws a0)).filter
          (fun cand => allNonZero (computeMinorDets cand.colors))).map
        (fun cand =>
          { colors := cand.colors, dets := computeMinorDets cand.colors,
            attempt := cand.attempt, connected := cand.connected }) :=
    foldl_append_filterMap _ _ _ rs0
  have hperm : (sortCandidates (mkCandidates draws a0)).Perm (mkCandidates draws a0) :=
    List.mergeSort_perm (mkCandidates draws a0) candLE
  have hcand_shape : ∀ cand ∈ mkCandidates draws a0,
      ∃ i, i < draws.length ∧ cand.attempt = a0 + i + 1 ∧
        cand.colors = draws.getD i [] := by
    intro cand hcand
    obtain ⟨q, hq, hmk⟩ := List.mem_map.mp hcand
    obtain ⟨j, hj, hget⟩ := List.mem_iff_getElem.mp hq
    rw [List.enum_length] at hj
    refine ⟨j, hj, ?_, ?_⟩
    · rw [← hmk]
      have : q = (j, draws[j]) := by rw [← hget, List.getElem_enum]
      rw [this]
    · rw [← hmk]
      have : q = (j, draws[j]) := by rw [← hget, List.getElem_enum]
      rw [this, List.getD_eq_getElem _ _ hj]
  refine ⟨fun cc => rfl, ?_, hperm, hres, ?_, ?_⟩
  · have hs := @List.sorted_mergeSort _ candLE ?htrans ?htotal (mkCandidates draws a0)
    · exact hs.imp (fun h => of_decide_eq_true h)
    · intro a b c hab hbc
      unfold candLE at hab hbc ⊢
      simp only [decide_eq_true_eq] at hab hbc ⊢
      omega
    · intro a b
      unfold candLE
      simp only [Bool.or_eq_true, decide_eq_true_eq]
      exact Nat.le_total _ _
  · intro r hr
    rw [hres] at hr
    rcases List.mem_append.mp hr with h | h
    · exact Or.inl h
    · right
      obtain ⟨cand, hcf, hmk⟩ := List.mem_map.mp h
      have hpass := List.of_mem_filter hcf
      have hcand : cand ∈ mkCandidates draws a0 :=
        hperm.mem_iff.mp (List.mem_of_mem_filter hcf)
      obtain ⟨i, hi, hatt, hcol⟩ := hcand_shape cand hcand
      refine ⟨i, hi, ?_, ?_, ?_⟩
      · rw [← hmk]
        exact hatt
      · rw [← hmk]
        exact hcol
      · rw [← hcol]
        exact hpass
  · intro i hi hpass
    have hqmem : (i, draws[i]) ∈ draws.enum := by
      refine List.mem_iff_getElem.mpr ⟨i, ?_, ?_⟩
      · rw [List.enum_length]
        exact hi
      · rw [List.getElem_enum]
    have hcand : ({ colors := draws[i],
                    connected := computeConnectedComponents draws[i],
                    priority := computePriorityScore
                      (computeConnectedComponents draws[i]),
                    attempt := a0 + i + 1 } : Candidate) ∈ mkCandidates draws a0 :=
      List.mem_map_of_mem _ hqmem
    have hsorted : ({ colors := draws[i],
                      connected := computeConnectedComponents draws[i],
                      priority := computePriorityScore
                        (computeConnectedComponents draws[i]),
                      attempt := a0 + i + 1 } : Candidate) ∈
        sortCandidates (mkCandidates draws a0) :=
      hperm.mem_iff.mpr hcand
    have hgetd : draws.getD i [] = draws[i] := List.getD_eq_getElem _ _ hi
    have hfil : ({ colors := draws[i],
                   connected := computeConnectedComponents draws[i],
                   priority := computePriorityScore
                     (computeConnectedComponents draws[i]),
                   attempt := a0 + i + 1 } : Candidate) ∈
        (sortCandidates (mkCandidates draws a0)).filter
          (fun cand => allNonZero (computeMinorDets cand.colors)) := by
      refine List.mem_filter.mpr ⟨hsorted, ?_⟩
      show allNonZero (computeMinorDets draws[i]) = true
      rw [← hgetd]
      exact hpass
    refine ⟨{ colors := draws[i],
              dets := computeMinorDets draws[i],
              attempt := a0 + i + 1,
              connected := computeConnectedComponents draws[i] }, ?_, rfl, hgetd.symm⟩
    rw [hres]
    exact List.mem_append.mpr (Or.inr (List.mem_map_of_mem _ hfil))

-- ## C9 groundwork: same-color reachability

lemma neighborsOf_symm (v w : TriangleCoord) :
    w ∈ neighborsOf v ↔ v ∈ neighborsOf w := by
  obtain ⟨vx, vy, vu⟩ := v
  obtain ⟨wx, wy, wu⟩ := w
  cases vu <;> cases wu <;>
    simp [neighborsOf, TriangleCoord.mk.injEq] <;> omega

/-- One flood-fill step: `w` is a neighbor of `u` and both carry the target
color in `cm`. -/
def sameColorStep (cm : Coloring) (t : Nat) (u w : TriangleCoord) : Prop :=
  mapGet cm u = some t ∧ mapGet cm w = some t ∧ w ∈ neighborsOf u

/-- Same-color connectivity: the reflexive-transitive closure of single
flood-fill steps. -/
def reachC (cm : Coloring) (t : Nat) (u w : TriangleCoord) : Prop :=
  Relation.ReflTransGen (sameColorStep cm t) u w

lemma sameColorStep_symm (cm : Coloring) (t : Nat) {u w : TriangleCoord}
    (h : sameColorStep cm t u w) : sameColorStep cm t w u :=
  ⟨h.2.1, h.1, (neighborsOf_symm w u).mpr h.2.2⟩

lemma reachC_symm (cm : Coloring) (t : Nat) {u w : TriangleCoord}
    (h : reachC cm t u w) : reachC cm t w u := by
  induction h with
  | refl => exact Relation.ReflTransGen.refl
  | tail huv hvw ih =>
    exact Relation.ReflTransGen.head (sameColorStep_symm cm t hvw) ih

lemma reachC_trans (cm : Coloring) (t : Nat) {u v w : TriangleCoord}
    (h1 : reachC cm t u v) (h2 : reachC cm t v w) : reachC cm t u w :=
  Relation.ReflTransGen.trans h1 h2

lemma reachC_color (cm : Coloring) (t : Nat) {u w : TriangleCoord}
    (h : reachC cm t u w) : w = u ∨ mapGet cm w = some t := by
  induction h with
  | refl => exact Or.inl rfl
  | tail _ hvw _ => exact Or.inr hvw.2.1

lemma reachC_single (cm : Coloring) (t : Nat) {u w : TriangleCoord}
    (h : sameColorStep cm t u w) : reachC cm t u w :=
  Relation.ReflTransGen.single h

-- dfs loop unfolding equations

lemma dfsLoop_nil (cm : Coloring) (t : Nat) (visited : Finset TriangleCoord) :
    dfsLoop cm t [] visited = visited := by
  rw [dfsLoop]

lemma dfsLoop_visited (cm : Coloring) (t : Nat) (key : TriangleCoord)
    (rest : List TriangleCoord) (visited : Finset TriangleCoord)
    (h : key ∈ visited) :
    dfsLoop cm t (key :: rest) visited = dfsLoop cm t rest visited := by
  rw [dfsLoop]
  rw [if_pos h]

lemma dfsLoop_none (cm : Coloring) (t : Nat) (key : TriangleCoord)
    (rest : List TriangleCoord) (visited : Finset TriangleCoord)
    (h : key ∉ visited) (hc : mapGet cm key = none) :
    dfsLoop cm t (key :: rest) visited = dfsLoop cm t rest visited := by
  rw [dfsLoop]
  rw [if_neg h]
  split
  · rfl
  · rename_i c heq
    rw [hc] at heq
    cases heq

lemma dfsLoop_wrong (cm : Coloring) (t : Nat) (key : TriangleCoord)
    (rest : List TriangleCoord) (visited : Finset TriangleCoord)
    (h : key ∉ visited) (c : Nat) (hc : mapGet cm key = some c) (hct : c ≠ t) :
    dfsLoop cm t (key :: rest) visited = dfsLoop cm t rest visited := by
  rw [dfsLoop]
  rw [if_neg h]
  split
  · rfl
  · rename_i c' heq
    rw [hc] at heq
    injection heq with heq'
    subst heq'
    rw [if_pos hct]

lemma dfsLoop_mark (cm : Coloring) (t : Nat) (key : TriangleCoord)
    (rest : List TriangleCoord) (visited : Finset TriangleCoord)
    (h : key ∉ visited) (hc : mapGet cm key = some t) :
    dfsLoop cm t (key :: rest) visited =
      dfsLoop cm t (((neighborsOf key).filter
          (fun nb => nb ∉ insert key visited ∧ mapGet cm nb = some t)).reverse ++ rest)
        (insert key visited) := by
  rw [dfsLoop]
  rw [if_neg h]
  split
  · rename_i heq
    rw [hc] at heq
    cases heq
  · rename_i c' heq
    rw [hc] at heq
    injection heq with heq'
    subst heq'
    rw [if_neg (fun hh => hh rfl)]

lemma dfsLoop_subset (cm : Coloring) (t : Nat) :
    ∀ (stack : List TriangleCoord) (visited : Finset TriangleCoord),
      visited ⊆ dfsLoop cm t stack visited := by
  intro stack visited
  induction stack, visited using dfsLoop.induct cm t with
  | case1 visited =>
    rw [dfsLoop_nil]
  | case2 visited key rest h ih =>
    rw [dfsLoop_visited _ _ _ _ _ h]
    exact ih
  | case3 visited key rest h hc ih =>
    rw [dfsLoop_none _ _ _ _ _ h hc]
    exact ih
  | case4 visited key rest h c hc hct ih =>
    rw [dfsLoop_wrong _ _ _ _ _ h c hc hct]
    exact ih
  | case5 visited key rest h c hc hct X p =>
    rename_i ih
    have hct' : c = t := not_not.mp hct
    subst hct'
    rw [dfsLoop_mark _ _ _ _ _ h hc]
    exact (Finset.subset_insert key visited).trans ih

lemma closed_reach (cm : Coloring) (t : Nat) (s : TriangleCoord)
    (visited : Finset TriangleCoord) (hs : s ∈ visited)
    (hclosed : ∀ m ∈ visited, reachC cm t s m →
      ∀ nb, sameColorStep cm t m nb → nb ∈ visited) :
    ∀ w, reachC cm t s w → w ∈ visited := by
  intro w hw
  induction hw with
  | refl => exact hs
  | tail hsv hvw ih => exact hclosed _ ih hsv _ hvw

lemma dfsLoop_char (cm : Coloring) (t : Nat) (s : TriangleCoord) :
    ∀ (stack : List TriangleCoord) (visited : Finset TriangleCoord),
      (∀ v ∈ stack, reachC cm t s v ∧ mapGet cm v = some t) →
      (∀ m ∈ visited, reachC cm t s m →
        ∀ nb, sameColorStep cm t m nb → nb ∈ visited ∨ nb ∈ stack) →
      (s ∈ visited ∨ s ∈ stack) →
      (∀ w ∈ dfsLoop cm t stack visited, w ∈ visited ∨ reachC cm t s w) ∧
      (∀ w, reachC cm t s w → w ∈ dfsLoop cm t stack visited) := by
  intro stack visited
  induction stack, visited using dfsLoop.induct cm t with
  | case1 visited =>
    intro H1 H3 H4
    rw [dfsLoop_nil]
    have hs : s ∈ visited := by
      rcases H4 with hh | hh
      · exact hh
      · exact absurd hh (List.not_mem_nil s)
    refine ⟨fun w hw => Or.inl hw, ?_⟩
    exact closed_reach cm t s visited hs
      (fun m hm hr nb hnb => (H3 m hm hr nb hnb).resolve_right
        (fun hh => absurd hh (List.not_mem_nil nb)))
  | case2 visited key rest h ih =>
    intro H1 H3 H4
    rw [dfsLoop_visited _ _ _ _ _ h]
    apply ih
    · exact fun v hv => H1 v (List.mem_cons_of_mem key hv)
    · intro m hm hr nb hnb
      rcases H3 m hm hr nb hnb with hh | hh
      · exact Or.inl hh
      · rcases List.mem_cons.mp hh with rfl | hh2
        · exact Or.inl h
        · exact Or.inr hh2
    · rcases H4 with hh | hh
      · exact Or.inl hh
      · rcases List.mem_cons.mp hh with rfl | hh2
        · exact Or.inl h
        · exact Or.inr hh2
  | case3 visited key rest h hc ih =>
    intro H1 H3 H4
    have h2 := (H1 key (List.mem_cons_self key rest)).2
    rw [h2] at hc
    cases hc
  | case4 visited key rest h c hc hct ih =>
    intro H1 H3 H4
    have h2 := (H1 key (List.mem_cons_self key rest)).2
    rw [h2] at hc
    injection hc with hc'
    exact absurd hc'.symm hct
  | case5 visited key rest h c hc hct X p =>
    rename_i ih
    intro H1 H3 H4
    have hct' : t = c := (not_not.mp hct).symm
    subst hct'
    rw [dfsLoop_mark _ _ _ _ _ h hc]
    have hreachkey : reachC cm t s key := (H1 key (List.mem_cons_self key rest)).1
    have hmain := ih ?H1' ?H3' ?H4'
    case H1' =>
      intro v hv
      rcases List.mem_append.mp hv with hv | hv
      · have hv2 := List.mem_reverse.mp hv
        have hv3 := List.mem_filter.mp hv2
        have hprops := of_decide_eq_true hv3.2
        refine ⟨?_, hprops.2⟩
        exact reachC_trans _ _ hreachkey
          (reachC_single _ _ ⟨hc, hprops.2, hv3.1⟩)
      · exact H1 v (List.mem_cons_of_mem key hv)
    case H3' =>
      intro m hm hr nb hnb
      rcases Finset.mem_insert.mp hm with rfl | hm2
      · by_cases hnbX : nb ∈ insert m visited
        · exact Or.inl hnbX
        · right
          apply List.mem_append_left
          rw [List.mem_reverse]
          exact List.mem_filter.mpr ⟨hnb.2.2, decide_eq_true ⟨hnbX, hnb.2.1⟩⟩
      · rcases H3 m hm2 hr nb hnb with hh | hh
        · exact Or.inl (Finset.mem_insert_of_mem hh)
        · rcases List.mem_cons.mp hh with rfl | hh2
          · exact Or.inl (Finset.mem_insert_self nb visited)
          · exact Or.inr (List.mem_append_right _ hh2)
    case H4' =>
      rcases H4 with hh | hh
      · exact Or.inl (Finset.mem_insert_of_mem hh)
      · rcases List.mem_cons.mp hh with rfl | hh2
        · exact Or.inl (Finset.mem_insert_self s visited)
        · exact Or.inr (List.mem_append_right _ hh2)
    obtain ⟨hC2, hC3⟩ := hmain
    refine ⟨?_, hC3⟩
    intro w hw
    rcases hC2 w hw with hwX | hwr
    · rcases Finset.mem_insert.mp hwX with rfl | hw2
      · exact Or.inr hreachkey
      · exact Or.inl hw2
    · exact Or.inr hwr

lemma dfsLoop_start_char (cm : Coloring) (t : Nat) (s : TriangleCoord)
    (visited : Finset TriangleCoord) (hs : mapGet cm s = some t)
    (hdisj : ∀ w, reachC cm t s w → w ∉ visited) :
    ∀ w, w ∈ dfsLoop cm t [s] visited ↔ (w ∈ visited ∨ reachC cm t s w) := by
  have h := dfsLoop_char cm t s [s] visited
    (fun v hv => by
      rcases List.mem_cons.mp hv with rfl | hv2
      · exact ⟨Relation.ReflTransGen.refl, hs⟩
      · exact absurd hv2 (List.not_mem_nil v))
    (fun m hm hr _ _ => (hdisj m hr hm).elim)
    (Or.inr (List.mem_cons_self s []))
  intro w
  constructor
  · exact h.1 w
  · rintro (hw | hw)
    · exact dfsLoop_subset cm t [s] visited hw
    · exact h.2 w hw

/-- The flood-fill loop invariant on the visited set: it is a union of whole
same-color components. -/
def visitedClosed (cm : Coloring) (V : Finset TriangleCoord) : Prop :=
  ∀ v ∈ V, ∀ t, mapGet cm v = some t → ∀ w, reachC cm t v w → w ∈ V

lemma visitedClosed_empty (cm : Coloring) : visitedClosed cm ∅ :=
  fun v hv => absurd hv (Finset.not_mem_empty v)

lemma reach_not_visited (cm : Coloring) (t : Nat) (s : TriangleCoord)
    (V : Finset TriangleCoord) (hclosed : visitedClosed cm V) (hsV : s ∉ V)
    (hs : mapGet cm s = some t) : ∀ w, reachC cm t s w → w ∉ V := by
  intro w hw hwV
  rcases reachC_color cm t hw with rfl | hcw
  · exact hsV hwV
  · exact hsV (hclosed w hwV t hcw s (reachC_symm cm t hw))

lemma visitedClosed_dfs (cm : Coloring) (t : Nat) (s : TriangleCoord)
    (V : Finset TriangleCoord) (hclosed : visitedClosed cm V)
    (hs : mapGet cm s = some t) (hsV : s ∉ V) :
    visitedClosed cm (dfsLoop cm t [s] V) := by
  have hchar := dfsLoop_start_char cm t s V hs
    (reach_not_visited cm t s V hclosed hsV hs)
  intro v hv t' hvt' w hw
  rw [hchar w]
  rcases (hchar v).mp hv with hvV | hvreach
  · exact Or.inl (hclosed v hvV t' hvt' w hw)
  · rcases reachC_color cm t hvreach with rfl | hcv
    · have ht' : t' = t := by
        rw [hs] at hvt'
        injection hvt' with hh
        exact hh.symm
      subst ht'
      exact Or.inr (reachC_trans cm t' hvreach hw)
    · have ht' : t' = t := by
        rw [hcv] at hvt'
        injection hvt' with hh
        exact hh.symm
      subst ht'
      exact Or.inr (reachC_trans cm t' hvreach hw)

-- ccStep helper lemmas

lemma ccStep_skip (cm : Coloring) (st : Finset TriangleCoord × CompCounts)
    (e : TriangleCoord × Nat) (h : e.2 = 0 ∨ e.1 ∈ st.1) : ccStep cm st e = st := by
  unfold ccStep
  rw [if_pos h]

lemma ccStep_go (cm : Coloring) (st : Finset TriangleCoord × CompCounts)
    (e : TriangleCoord × Nat) (h : ¬(e.2 = 0 ∨ e.1 ∈ st.1)) :
    ccStep cm st e = (dfsLoop cm e.2 [e.1] st.1,
      if e.2 = 1 then { st.2 with white := st.2.white + 1 }
      else if e.2 = 2 then { st.2 with black := st.2.black + 1 }
      else if e.2 = 3 then { st.2 with gray := st.2.gray + 1 } else st.2) := by
  unfold ccStep
  rw [if_neg h]

lemma ccStep_fst_mono (cm : Coloring) (st : Finset TriangleCoord × CompCounts)
    (e : TriangleCoord × Nat) : st.1 ⊆ (ccStep cm st e).1 := by
  by_cases h : e.2 = 0 ∨ e.1 ∈ st.1
  · rw [ccStep_skip cm st e h]
  · rw [ccStep_go cm st e h]
    exact dfsLoop_subset cm e.2 [e.1] st.1

lemma visitedClosed_ccStep (cm : Coloring) (st : Finset TriangleCoord × CompCounts)
    (e : TriangleCoord × Nat) (hInv : visitedClosed cm st.1)
    (he : mapGet cm e.1 = some e.2) : visitedClosed cm (ccStep cm st e).1 := by
  by_cases h : e.2 = 0 ∨ e.1 ∈ st.1
  · rw [ccStep_skip cm st e h]
    exact hInv
  · rw [ccStep_go cm st e h]
    exact visitedClosed_dfs cm e.2 e.1 st.1 hInv he (fun hh => h (Or.inr hh))

lemma ccStep_comm (cm : Coloring) (st : Finset TriangleCoord × CompCounts)
    (x y : TriangleCoord × Nat)
    (hx : mapGet cm x.1 = some x.2) (hy : mapGet cm y.1 = some y.2)
    (hxy : x.1 ≠ y.1) (hInv : visitedClosed cm st.1) :
    ccStep cm (ccStep cm st x) y = ccStep cm (ccStep cm st y) x := by
  obtain ⟨xk, xc⟩ := x
  obtain ⟨yk, yc⟩ := y
  simp only at hx hy hxy
  by_cases hx0 : xc = 0
  · rw [ccStep_skip cm st (xk, xc) (Or.inl hx0),
      ccStep_skip cm (ccStep cm st (yk, yc)) (xk, xc) (Or.inl hx0)]
  by_cases hy0 : yc = 0
  · rw [ccStep_skip cm st (yk, yc) (Or.inl hy0),
      ccStep_skip cm (ccStep cm st (xk, xc)) (yk, yc) (Or.inl hy0)]
  by_cases hxV : xk ∈ st.1
  · rw [ccStep_skip cm st (xk, xc) (Or.inr hxV),
      ccStep_skip cm (ccStep cm st (yk, yc)) (xk, xc)
        (Or.inr (ccStep_fst_mono cm st (yk, yc) hxV))]
  by_cases hyV : yk ∈ st.1
  · rw [ccStep_skip cm st (yk, yc) (Or.inr hyV),
      ccStep_skip cm (ccStep cm st (xk, xc)) (yk, yc)
        (Or.inr (ccStep_fst_mono cm st (xk, xc) hyV))]
  have hdisjx : ∀ w, reachC cm xc xk w → w ∉ st.1 :=
    reach_not_visited cm xc xk st.1 hInv hxV hx
  have hdisjy : ∀ w, reachC cm yc yk w → w ∉ st.1 :=
    reach_not_visited cm yc yk st.1 hInv hyV hy
  have hcharx := dfsLoop_start_char cm xc xk st.1 hx hdisjx
  have hchary := dfsLoop_start_char cm yc yk st.1 hy hdisjy
  by_cases hsame : xc = yc ∧ reachC cm xc xk yk
  · obtain ⟨ht, hreach⟩ := hsame
    subst ht
    have hyinx : yk ∈ dfsLoop cm xc [xk] st.1 := (hcharx yk).mpr (Or.inr hreach)
    have hreach' : reachC cm xc yk xk := reachC_symm cm xc hreach
    have hxiny : xk ∈ dfsLoop cm xc [yk] st.1 := (hchary xk).mpr (Or.inr hreach')
    rw [ccStep_go cm st (xk, xc) (not_or.mpr ⟨hx0, hxV⟩),
      ccStep_go cm st (yk, xc) (not_or.mpr ⟨hy0, hyV⟩),
      ccStep_skip cm _ (yk, xc) (Or.inr hyinx),
      ccStep_skip cm _ (xk, xc) (Or.inr hxiny),
      Prod.mk.injEq]
    refine ⟨?_, rfl⟩
    apply Finset.ext
    intro w
    rw [hcharx w, hchary w]
    exact or_congr_right
      ⟨fun hr => reachC_trans cm xc hreach' hr,
       fun hr => reachC_trans cm xc hreach hr⟩
  · have hyinx : yk ∉ dfsLoop cm xc [xk] st.1 := by
      intro hmem
      rcases (hcharx yk).mp hmem with hmem2 | hmem2
      · exact hyV hmem2
      · rcases reachC_color cm xc hmem2 with heq | hcol
        · exact hxy heq.symm
        · rw [hy] at hcol
          injection hcol with hcol'
          exact hsame ⟨hcol'.symm, hmem2⟩
    have hxiny : xk ∉ dfsLoop cm yc [yk] st.1 := by
      intro hmem
      rcases (hchary xk).mp hmem with hmem2 | hmem2
      · exact hxV hmem2
      · rcases reachC_color cm yc hmem2 with heq | hcol
        · exact hxy heq
        · rw [hx] at hcol
          injection hcol with hcol'
          refine hsame ⟨hcol', ?_⟩
          rw [hcol']
          exact reachC_symm cm yc hmem2
    rw [ccStep_go cm st (xk, xc) (not_or.mpr ⟨hx0, hxV⟩),
      ccStep_go cm st (yk, yc) (not_or.mpr ⟨hy0, hyV⟩),
      ccStep_go cm _ (yk, yc) (not_or.mpr ⟨hy0, hyinx⟩),
      ccStep_go cm _ (xk, xc) (not_or.mpr ⟨hx0, hxiny⟩),
      Prod.mk.injEq]
    constructor
    · have hInvX : visitedClosed cm (dfsLoop cm xc [xk] st.1) :=
        visitedClosed_dfs cm xc xk st.1 hInv hx hxV
      have hInvY : visitedClosed cm (dfsLoop cm yc [yk] st.1) :=
        visitedClosed_dfs cm yc yk st.1 hInv hy hyV
      have hdy2 : ∀ w, reachC cm yc yk w → w ∉ dfsLoop cm xc [xk] st.1 :=
        reach_not_visited cm yc yk _ hInvX hyinx hy
      have hdx2 : ∀ w, reachC cm xc xk w → w ∉ dfsLoop cm yc [yk] st.1 :=
        reach_not_visited cm xc xk _ hInvY hxiny hx
      have hch2 := dfsLoop_start_char cm yc yk (dfsLoop cm xc [xk] st.1) hy hdy2
      have hch3 := dfsLoop_start_char cm xc xk (dfsLoop cm yc [yk] st.1) hx hdx2
      apply Finset.ext
      intro w
      rw [hch2 w, hch3 w, hcharx w, hchary w]
      tauto
    · split_ifs <;> rfl

lemma mapGet_eq_none_iff (m : Coloring) (k : TriangleCoord) :
    mapGet m k = none ↔ k ∉ mapKeys m := by
  unfold mapGet
  rcases hfind : m.find? (fun p => p.1 = k) with - | p
  · rw [hfind]
    constructor
    · intro _ hk
      obtain ⟨q, hq, hqk⟩ := List.mem_map.mp hk
      have hnone := List.find?_eq_none.mp hfind q hq
      exact absurd (decide_eq_true hqk) (by simpa using hnone)
    · intro _
      rfl
  · rw [hfind]
    have hp0 := List.find?_some hfind
    have hp1 : p.1 = k := of_decide_eq_true hp0
    have hkmem : k ∈ mapKeys m :=
      hp1 ▸ List.mem_map_of_mem Prod.fst (List.mem_of_find?_eq_some hfind)
    constructor
    · intro h
      cases h
    · intro hk
      exact absurd hkmem hk

lemma nodup_keys_val_eq (m : Coloring) (hnd : (mapKeys m).Nodup)
    {k : TriangleCoord} {v v' : Nat} (h1 : (k, v) ∈ m) (h2 : (k, v') ∈ m) :
    v = v' := by
  induction m with
  | nil => exact absurd h1 (List.not_mem_nil _)
  | cons a t ih =>
    rw [mapKeys, List.map_cons, List.nodup_cons] at hnd
    rcases List.mem_cons.mp h1 with rfl | h1'
    · rcases List.mem_cons.mp h2 with heq | h2'
      · exact ((Prod.mk.injEq _ _ _ _).mp heq.symm).2
      · exact absurd (List.mem_map_of_mem Prod.fst h2') hnd.1
    · rcases List.mem_cons.mp h2 with rfl | h2'
      · exact absurd (List.mem_map_of_mem Prod.fst h1') hnd.1
      · exact ih hnd.2 h1' h2'

lemma mapGet_of_mem_nodup (m : Coloring) (hnd : (mapKeys m).Nodup)
    {e : TriangleCoord × Nat} (he : e ∈ m) : mapGet m e.1 = some e.2 := by
  rcases hg : mapGet m e.1 with - | v
  · rw [mapGet_eq_none_iff] at hg
    exact absurd (List.mem_map_of_mem Prod.fst he) hg
  · have hmem := mapGet_some_mem m e.1 v hg
    rw [nodup_keys_val_eq m hnd hmem he]

lemma mapGet_perm (l₁ l₂ : Coloring) (hperm : l₁.Perm l₂)
    (hnd : (mapKeys l₁).Nodup) : ∀ k, mapGet l₁ k = mapGet l₂ k := by
  have hnd₂ : (mapKeys l₂).Nodup := ((hperm.map Prod.fst).nodup_iff).mp hnd
  intro k
  rcases hg : mapGet l₁ k with - | v
  · rw [mapGet_eq_none_iff] at hg
    have : k ∉ mapKeys l₂ := fun hk => hg ((hperm.map Prod.fst).mem_iff.mpr hk)
    exact ((mapGet_eq_none_iff l₂ k).mpr this).symm
  · have hmem := mapGet_some_mem l₁ k v hg
    exact (mapGet_of_mem_nodup l₂ hnd₂ (hperm.mem_iff.mp hmem)).symm

lemma dfsLoop_congr (cm₁ cm₂ : Coloring)
    (hmg : ∀ k, mapGet cm₁ k = mapGet cm₂ k) (t : Nat) :
    ∀ (stack : List TriangleCoord) (visited : Finset TriangleCoord),
      dfsLoop cm₁ t stack visited = dfsLoop cm₂ t stack visited := by
  intro stack visited
  induction stack, visited using dfsLoop.induct cm₁ t with
  | case1 visited =>
    rw [dfsLoop_nil, dfsLoop_nil]
  | case2 visited key rest h ih =>
    rw [dfsLoop_visited cm₁ _ _ _ _ h, dfsLoop_visited cm₂ _ _ _ _ h]
    exact ih
  | case3 visited key rest h hc ih =>
    rw [dfsLoop_none cm₁ _ _ _ _ h hc,
      dfsLoop_none cm₂ _ _ _ _ h (by rw [← hmg key]; exact hc)]
    exact ih
  | case4 visited key rest h c hc hct ih =>
    rw [dfsLoop_wrong cm₁ _ _ _ _ h c hc hct,
      dfsLoop_wrong cm₂ _ _ _ _ h c (by rw [← hmg key]; exact hc) hct]
    exact ih
  | case5 visited key rest h c hc hct X p =>
    rename_i ih
    have hct' : t = c := (not_not.mp hct).symm
    subst hct'
    rw [dfsLoop_mark cm₁ _ _ _ _ h hc,
      dfsLoop_mark cm₂ _ _ _ _ h (by rw [← hmg key]; exact hc)]
    have hfil : (neighborsOf key).filter
        (fun nb => nb ∉ insert key visited ∧ mapGet cm₁ nb = some t) =
        (neighborsOf key).filter
        (fun nb => nb ∉ insert key visited ∧ mapGet cm₂ nb = some t) := by
      apply List.filter_congr
      intro nb _
      rw [hmg nb]
    rw [← hfil]
    exact ih

lemma ccStep_congr (cm₁ cm₂ : Coloring)
    (hmg : ∀ k, mapGet cm₁ k = mapGet cm₂ k)
    (st : Finset TriangleCoord × CompCounts) (e : TriangleCoord × Nat) :
    ccStep cm₁ st e = ccStep cm₂ st e := by
  by_cases h : e.2 = 0 ∨ e.1 ∈ st.1
  · rw [ccStep_skip cm₁ st e h, ccStep_skip cm₂ st e h]
  · rw [ccStep_go cm₁ st e h, ccStep_go cm₂ st e h,
      dfsLoop_congr cm₁ cm₂ hmg e.2 [e.1] st.1]

lemma foldl_ccStep_perm (cm : Coloring) :
    ∀ (s₁ s₂ : List (TriangleCoord × Nat)), s₁.Perm s₂ →
      (∀ e ∈ s₁, mapGet cm e.1 = some e.2) →
      ((s₁.map Prod.fst).Nodup) →
      ∀ st : Finset TriangleCoord × CompCounts, visitedClosed cm st.1 →
        s₁.foldl (ccStep cm) st = s₂.foldl (ccStep cm) st := by
  intro s₁ s₂ hperm
  induction hperm with
  | nil =>
    intro _ _ st _
    rfl
  | cons e hp ih =>
    intro hents hnd st hInv
    rw [List.foldl_cons, List.foldl_cons]
    refine ih (fun e' he' => hents e' (List.mem_cons_of_mem e he')) ?_ _ ?_
    · rw [List.map_cons, List.nodup_cons] at hnd
      exact hnd.2
    · exact visitedClosed_ccStep cm st e hInv (hents e (List.mem_cons_self e _))
  | swap a b l =>
    intro hents hnd st hInv
    rw [List.foldl_cons, List.foldl_cons, List.foldl_cons, List.foldl_cons]
    have hb := hents b (List.mem_cons_self b _)
    have ha := hents a (List.mem_cons_of_mem b (List.mem_cons_self a _))
    have hba : b.1 ≠ a.1 := by
      rw [List.map_cons, List.nodup_cons] at hnd
      intro hh
      exact hnd.1 (hh ▸ List.mem_map_of_mem Prod.fst (List.mem_cons_self a l))
    rw [ccStep_comm cm st b a hb ha hba hInv]
  | trans h12 h23 ih1 ih2 =>
    intro hents hnd st hInv
    rw [ih1 hents hnd st hInv]
    refine ih2 (fun e he => hents e (h12.mem_iff.mpr he)) ?_ st hInv
    exact ((h12.map Prod.fst).nodup_iff).mp hnd

-- ## C9: component counts are independent of the iteration order

/-- C9: for every coloring with duplicate-free keys, the per-color
connected-component counts computed by the stack-based flood fill are the
same for any two iteration orders (permutations) of the colored entries. -/
theorem computeConnectedComponents_order_independent (l₁ l₂ : Coloring)
    (hnd : (mapKeys l₁).Nodup) (hperm : l₁.Perm l₂) :
    computeConnectedComponents l₁ = computeConnectedComponents l₂ := by
  unfold computeConnectedComponents
  have hmg : ∀ k, mapGet l₂ k = mapGet l₁ k :=
    fun k => (mapGet_perm l₁ l₂ hperm hnd k).symm
  have hstep : ccStep l₂ = ccStep l₁ :=
    funext (fun st => funext (fun e => ccStep_congr l₂ l₁ hmg st e))
  rw [hstep]
  have hents : ∀ e ∈ l₁, mapGet l₁ e.1 = some e.2 :=
    fun e he => mapGet_of_mem_nodup l₁ hnd he
  rw [foldl_ccStep_perm l₁ l₁ l₂ hperm hents hnd (∅, ⟨0, 0, 0⟩)
    (visitedClosed_empty l₁)]

/-- Witness for C9: a two-entry coloring and its reversal. -/
theorem computeConnectedComponents_order_independent_witness :
    (mapKeys [((⟨0, 0, true⟩ : TriangleCoord), 1), (⟨1, 0, false⟩, 2)]).Nodup ∧
    ([((⟨0, 0, true⟩ : TriangleCoord), 1), (⟨1, 0, false⟩, 2)] : Coloring).Perm
      [(⟨1, 0, false⟩, 2), (⟨0, 0, true⟩, 1)] ∧
    computeConnectedComponents [((⟨0, 0, true⟩ : TriangleCoord), 1), (⟨1, 0, false⟩, 2)]
      = computeConnectedComponents [(⟨1, 0, false⟩, 2), (⟨0, 0, true⟩, 1)] :=
  ⟨by decide, List.Perm.swap _ _ _,
   computeConnectedComponents_order_independent _ _ (by decide)
     (List.Perm.swap _ _ _)⟩

-- ## C10: heap model of `determinant` (frame property of the row copy)

/-- A heap of JS row arrays: addresses carry row contents, with a bump
allocator. Only rows matter here, since `determinant` and the minor
extraction allocate and mutate row arrays. -/
structure Store where
  rows : Nat → List Rat
  next : Nat

/-- Heap read `m[r][c]` through a row-address list. -/
def get2H (σ : Store) (m : List Nat) (r c : Nat) : Rat :=
  (σ.rows (m.getD r 0)).getD c 0

/-- Heap write of a whole row array. -/
def setRow (σ : Store) (a : Nat) (r : List Rat) : Store :=
  { σ with rows := fun b => if b = a then r else σ.rows b }

/-- The pivot scan of `determinant`, reading through the heap. -/
def pivotSearchH (σ : Store) (m : List Nat) (i : Nat) : Nat :=
  (List.range' (i + 1) (m.length - (i + 1))).foldl
    (fun maxRow k => if |get2H σ m k i| > |get2H σ m maxRow i| then k else maxRow) i

/-- The swap `[m[i], m[maxRow]] = [m[maxRow], m[i]]` swaps the row
references held by the local array `m`, not heap contents. -/
def swapAddrs (m : List Nat) (i j : Nat) : List Nat :=
  let ri := m.getD i 0
  let rj := m.getD j 0
  (m.set i rj).set j ri

/-- The elimination inner loops writing `m[k][j] -= factor * m[i][j]` into
the heap row addressed by `m[k]` (rows are distinct fresh arrays, so reading
the pivot row once per row equals the source's per-entry reads). -/
def elimRowH (m : List Nat) (i : Nat) (σ' : Store) (k : Nat) : Store :=
  let pr := σ'.rows (m.getD i 0)
  let piv := pr.getD i 0
  setRow σ' (m.getD k 0) (elimRow pr piv i (σ'.rows (m.getD k 0)))

def elimH (σ : Store) (m : List Nat) (i : Nat) : Store :=
  (List.range' (i + 1) (m.length - (i + 1))).foldl (elimRowH m i) σ

/-- The heap-level main loop of `determinant`. -/
def detLoopH : Nat → Store → List Nat → Rat → Nat → Rat × Store
  | 0, σ, _, det, _ => (det, σ)
  | fuel + 1, σ, m, det, i =>
    let maxRow := pivotSearchH σ m i
    if |get2H σ m maxRow i| < 1 / 10 ^ 10 then (0, σ)
    else
      let m1 := if maxRow ≠ i then swapAddrs m i maxRow else m
      let det1 := if maxRow ≠ i then -det else det
      let det2 := det1 * get2H σ m1 i i
      detLoopH fuel (elimH σ m1 i) m1 det2 (i + 1)

/-- Allocate fresh row arrays with the given contents. -/
def allocRows (σ : Store) (rs : List (List Rat)) : Store × List Nat :=
  ({ rows := fun a => if σ.next ≤ a ∧ a < σ.next + rs.length
       then rs.getD (a - σ.next) [] else σ.rows a,
     next := σ.next + rs.length },
   (List.range rs.length).map (fun i => σ.next + i))

/-- Heap-level `determinant(matrix)`: the base cases return before any
copy; otherwise `matrix.map(row => [...row])` allocates fresh copies of the
dereferenced rows, and elimination runs on those copies only. -/
def determinantH (σ : Store) (matrix : List Nat) : Rat × Store :=
  let n := matrix.length
  if n = 0 then (1, σ)
  else if n = 1 then ((σ.rows (matrix.getD 0 0)).getD 0 0, σ)
  else
    let copy := allocRows σ (matrix.map (fun a => σ.rows a))
    detLoopH n copy.1 copy.2 1 0

/-- One minor evaluation: `mat.filter(...).map(row => row.filter(...))`
builds fresh row arrays from the current heap contents of the shared
matrix, and `determinant` is called on them. -/
def minorDetH (σ : Store) (matAddrs : List Nat) (i : Nat) : Rat × Store :=
  let rs := (removeIdx matAddrs i).map (fun a => removeIdx (σ.rows a) i)
  let alloc := allocRows σ rs
  determinantH alloc.1 alloc.2

/-- The final `mat.map((_, i) => ...)` of `computeMinorDets`, with the shared
signed matrix living in the heap at the addresses `matAddrs`. -/
def computeMinorDetsH (σ : Store) (matAddrs : List Nat) : List (Nat × Rat) × Store :=
  (List.range matAddrs.length).foldl
    (fun acc i =>
      let r := minorDetH acc.2 matAddrs i
      (acc.1 ++ [(i, r.1)], r.2))
    ([], σ)

lemma allocRows_next (σ : Store) (rs : List (List Rat)) :
    (allocRows σ rs).1.next = σ.next + rs.length := rfl

lemma allocRows_rows_lo (σ : Store) (rs : List (List Rat)) (a : Nat)
    (ha : a < σ.next) : (allocRows σ rs).1.rows a = σ.rows a := by
  unfold allocRows
  dsimp only
  rw [if_neg]
  omega

lemma allocRows_addr_getD (σ : Store) (rs : List (List Rat)) (k : Nat)
    (hk : k < rs.length) : (allocRows σ rs).2.getD k 0 = σ.next + k := by
  unfold allocRows
  dsimp only
  rw [List.getD_eq_getElem _ _ (by simpa using hk), List.getElem_map,
    List.getElem_range]

lemma allocRows_length (σ : Store) (rs : List (List Rat)) :
    (allocRows σ rs).2.length = rs.length := by
  unfold allocRows
  dsimp only
  rw [List.length_map, List.length_range]

lemma allocRows_mem_bound (σ : Store) (rs : List (List Rat)) (a : Nat)
    (ha : a ∈ (allocRows σ rs).2) : σ.next ≤ a ∧ a < σ.next + rs.length := by
  unfold allocRows at ha
  dsimp only at ha
  obtain ⟨i, hi, rfl⟩ := List.mem_map.mp ha
  have := List.mem_range.mp hi
  omega

lemma allocRows_map (σ : Store) (rs : List (List Rat)) :
    (allocRows σ rs).2.map (allocRows σ rs).1.rows = rs := by
  refine List.ext_getElem ?_ ?_
  · rw [List.length_map, allocRows_length]
  · intro r h1 h2
    rw [List.getElem_map]
    have hr : r < rs.length := by
      rw [List.length_map, allocRows_length] at h1
      exact h1
    have hlen2 : r < (allocRows σ rs).2.length := by
      rw [allocRows_length]
      exact hr
    have haddr : (allocRows σ rs).2[r] = σ.next + r := by
      rw [← List.getD_eq_getElem _ 0 hlen2]
      exact allocRows_addr_getD σ rs r hr
    rw [haddr]
    show (if σ.next ≤ σ.next + r ∧ σ.next + r < σ.next + rs.length
      then rs.getD (σ.next + r - σ.next) [] else σ.rows (σ.next + r)) = rs[r]
    rw [if_pos (by omega)]
    have : σ.next + r - σ.next = r := by omega
    rw [this, List.getD_eq_getElem _ _ hr]

lemma allocRows_pairwise (σ : Store) (rs : List (List Rat)) :
    ∀ k1, k1 < (allocRows σ rs).2.length → ∀ k2, k2 < (allocRows σ rs).2.length →
      k1 ≠ k2 → (allocRows σ rs).2.getD k1 0 ≠ (allocRows σ rs).2.getD k2 0 := by
  intro k1 h1 k2 h2 hne
  rw [allocRows_length] at h1 h2
  rw [allocRows_addr_getD σ rs k1 h1, allocRows_addr_getD σ rs k2 h2]
  omega

lemma map_getD_rows (σ : Store) (m : List Nat) (r : Nat) (hr : r < m.length) :
    σ.rows (m.getD r 0) = (m.map σ.rows).getD r [] := by
  rw [List.getD_eq_getElem m 0 hr,
    List.getD_eq_getElem _ [] (by rw [List.length_map]; exact hr),
    List.getElem_map]

lemma get2H_eq (σ : Store) (m : List Nat) (r c : Nat) (hr : r < m.length) :
    get2H σ m r c = get2 (m.map σ.rows) r c := by
  unfold get2H get2
  rw [map_getD_rows σ m r hr]

lemma pivotSearchH_eq (σ : Store) (m : List Nat) (i : Nat) (hi : i < m.length) :
    pivotSearchH σ m i = pivotSearch (m.map σ.rows) i := by
  unfold pivotSearchH pivotSearch
  rw [List.length_map]
  have hgen : ∀ (ks : List Nat), (∀ k ∈ ks, k < m.length) →
      ∀ acc, acc < m.length →
      ks.foldl (fun maxRow k =>
        if |get2H σ m k i| > |get2H σ m maxRow i| then k else maxRow) acc
      = ks.foldl (fun maxRow k =>
          if |get2 (m.map σ.rows) k i| > |get2 (m.map σ.rows) maxRow i|
          then k else maxRow) acc := by
    intro ks
    induction ks with
    | nil => intro _ acc _; rfl
    | cons k t ih =>
      intro hks acc hacc
      simp only [List.foldl_cons]
      have hk := hks k (List.mem_cons_self k t)
      rw [get2H_eq σ m k i hk, get2H_eq σ m acc i hacc]
      by_cases hcond : |get2 (m.map σ.rows) k i| > |get2 (m.map σ.rows) acc i|
      · rw [if_pos hcond]
        exact ih (fun k' hk' => hks k' (List.mem_cons_of_mem k hk')) k hk
      · rw [if_neg hcond]
        exact ih (fun k' hk' => hks k' (List.mem_cons_of_mem k hk')) acc hacc
  apply hgen
  · intro k hk
    have := List.mem_range'_1.mp hk
    omega
  · exact hi

lemma pivotSearch_lt (M : List (List Rat)) (i : Nat) (hi : i < M.length) :
    pivotSearch M i < M.length := by
  unfold pivotSearch
  have hgen : ∀ (ks : List Nat), (∀ k ∈ ks, k < M.length) →
      ∀ acc, acc < M.length →
      ks.foldl (fun maxRow k =>
        if |get2 M k i| > |get2 M maxRow i| then k else maxRow) acc < M.length := by
    intro ks
    induction ks with
    | nil => intro _ acc hacc; exact hacc
    | cons k t ih =>
      intro hks acc hacc
      simp only [List.foldl_cons]
      by_cases hcond : |get2 M k i| > |get2 M acc i|
      · rw [if_pos hcond]
        exact ih (fun k' hk' => hks k' (List.mem_cons_of_mem k hk'))
          k (hks k (List.mem_cons_self k t))
      · rw [if_neg hcond]
        exact ih (fun k' hk' => hks k' (List.mem_cons_of_mem k hk')) acc hacc
  apply hgen
  · intro k hk
    have := List.mem_range'_1.mp hk
    omega
  · exact hi

lemma getD_set_gen {α : Type} (l : List α) (j pos : Nat) (v d : α) :
    (l.set j v).getD pos d = if j = pos ∧ j < l.length then v else l.getD pos d := by
  simp only [List.getD_eq_getElem?_getD, List.getElem?_set]
  split
  · rename_i h
    subst h
    by_cases hj : j < l.length
    · simp [hj]
    · simp [hj, List.getElem?_eq_none (le_of_not_lt hj)]
  · rename_i h
    simp [h]

lemma swapAddrs_length (m : List Nat) (i j : Nat) :
    (swapAddrs m i j).length = m.length := by
  unfold swapAddrs
  simp

lemma swapAddrs_map (σ : Store) (m : List Nat) (i j : Nat)
    (hi : i < m.length) (hj : j < m.length) :
    (swapAddrs m i j).map σ.rows = swapRows (m.map σ.rows) i j := by
  unfold swapAddrs swapRows
  dsimp only
  rw [List.map_set, List.map_set, map_getD_rows σ m i hi, map_getD_rows σ m j hj]

lemma swapAddrs_getD (m : List Nat) (i j k : Nat)
    (hi : i < m.length) (hj : j < m.length) :
    (swapAddrs m i j).getD k 0 =
      if k = j then m.getD i 0 else if k = i then m.getD j 0 else m.getD k 0 := by
  unfold swapAddrs
  dsimp only
  rw [getD_set_gen, getD_set_gen]
  by_cases hkj : j = k
  · have h1 : j = k ∧ j < (m.set i (m.getD j 0)).length :=
      ⟨hkj, by rw [List.length_set]; exact hj⟩
    rw [if_pos h1, if_pos hkj.symm]
  · have h1 : ¬(j = k ∧ j < (m.set i (m.getD j 0)).length) := fun hh => hkj hh.1
    have h2 : ¬(k = j) := fun hh => hkj hh.symm
    rw [if_neg h1, if_neg h2]
    by_cases hki : i = k
    · have h3 : i = k ∧ i < m.length := ⟨hki, hi⟩
      rw [if_pos h3, if_pos hki.symm]
    · have h4 : ¬(i = k ∧ i < m.length) := fun hh => hki hh.1
      have h5 : ¬(k = i) := fun hh => hki hh.symm
      rw [if_neg h4, if_neg h5]

lemma swapAddrs_mem (m : List Nat) (i j a : Nat)
    (hi : i < m.length) (hj : j < m.length) (ha : a ∈ swapAddrs m i j) : a ∈ m := by
  unfold swapAddrs at ha
  dsimp only at ha
  rcases List.mem_or_eq_of_mem_set ha with ha2 | rfl
  · rcases List.mem_or_eq_of_mem_set ha2 with ha3 | rfl
    · exact ha3
    · have hh : m.getD j 0 = m[j] := List.getD_eq_getElem m 0 hj
      rw [hh]
      exact List.getElem_mem hj
  · have hh : m.getD i 0 = m[i] := List.getD_eq_getElem m 0 hi
    rw [hh]
    exact List.getElem_mem hi

lemma swapAddrs_pairwise (m : List Nat) (i j : Nat)
    (hi : i < m.length) (hj : j < m.length)
    (hpair : ∀ k1, k1 < m.length → ∀ k2, k2 < m.length → k1 ≠ k2 →
      m.getD k1 0 ≠ m.getD k2 0) :
    ∀ k1, k1 < (swapAddrs m i j).length → ∀ k2, k2 < (swapAddrs m i j).length →
      k1 ≠ k2 → (swapAddrs m i j).getD k1 0 ≠ (swapAddrs m i j).getD k2 0 := by
  intro k1 h1 k2 h2 hne
  rw [swapAddrs_length] at h1 h2
  rw [swapAddrs_getD m i j k1 hi hj, swapAddrs_getD m i j k2 hi hj]
  split_ifs <;> (exact hpair _ (by omega) _ (by omega) (by omega))

lemma foldl_elimRowH_next (m : List Nat) (i : Nat) :
    ∀ (ks : List Nat) (σ0 : Store), (ks.foldl (elimRowH m i) σ0).next = σ0.next := by
  intro ks
  induction ks with
  | nil => intro σ0; rfl
  | cons k t ih =>
    intro σ0
    simp only [List.foldl_cons]
    rw [ih]
    rfl

lemma elimH_next (σ : Store) (m : List Nat) (i : Nat) :
    (elimH σ m i).next = σ.next :=
  foldl_elimRowH_next m i _ σ

lemma elimH_fold (m : List Nat) (i : Nat)
    (hpair : ∀ k1, k1 < m.length → ∀ k2, k2 < m.length → k1 ≠ k2 →
      m.getD k1 0 ≠ m.getD k2 0)
    (hi : i < m.length) :
    ∀ (ks : List Nat), (∀ k ∈ ks, i < k ∧ k < m.length) → ks.Nodup →
      ∀ σ0 : Store,
      (∀ a, (∀ k ∈ ks, m.getD k 0 ≠ a) →
        (ks.foldl (elimRowH m i) σ0).rows a = σ0.rows a) ∧
      (∀ k ∈ ks, (ks.foldl (elimRowH m i) σ0).rows (m.getD k 0) =
        elimRow (σ0.rows (m.getD i 0)) ((σ0.rows (m.getD i 0)).getD i 0) i
          (σ0.rows (m.getD k 0))) := by
  intro ks
  induction ks with
  | nil =>
    intro _ _ σ0
    exact ⟨fun a _ => rfl, fun k hk => absurd hk (List.not_mem_nil k)⟩
  | cons k t ih =>
    intro hks hnd σ0
    have hk := hks k (List.mem_cons_self k t)
    have hikd : m.getD i 0 ≠ m.getD k 0 := hpair i hi k hk.2 (by omega)
    have ht : ∀ k' ∈ t, i < k' ∧ k' < m.length :=
      fun k' hk' => hks k' (List.mem_cons_of_mem k hk')
    have hndt : t.Nodup := (List.nodup_cons.mp hnd).2
    have hknt : k ∉ t := (List.nodup_cons.mp hnd).1
    have hσ1rows : ∀ a, (elimRowH m i σ0 k).rows a =
        if a = m.getD k 0 then
          elimRow (σ0.rows (m.getD i 0)) ((σ0.rows (m.getD i 0)).getD i 0) i
            (σ0.rows (m.getD k 0))
        else σ0.rows a := fun a => rfl
    obtain ⟨ihf, ihm⟩ := ih ht hndt (elimRowH m i σ0 k)
    simp only [List.foldl_cons]
    constructor
    · intro a ha
      have h1 := ihf a (fun k' hk' => ha k' (List.mem_cons_of_mem k hk'))
      have hne : a ≠ m.getD k 0 :=
        fun hh => ha k (List.mem_cons_self k t) hh.symm
      rw [h1, hσ1rows a, if_neg hne]
    · intro k' hk'
      rcases List.mem_cons.mp hk' with rfl | hkt
      · have h1 := ihf (m.getD k' 0) (fun k'' hk'' =>
          hpair k'' (ht k'' hk'').2 k' hk.2
            (fun hh => hknt (hh ▸ hk'')))
        rw [h1, hσ1rows (m.getD k' 0), if_pos rfl]
      · have h1 := ihm k' hkt
        rw [h1, hσ1rows (m.getD i 0), if_neg hikd,
          hσ1rows (m.getD k' 0),
          if_neg (hpair k' (ht k' hkt).2 k hk.2
            (fun hh => hknt (hh ▸ hkt)))]

lemma elimH_frame (σ : Store) (m : List Nat) (i : Nat)
    (hpair : ∀ k1, k1 < m.length → ∀ k2, k2 < m.length → k1 ≠ k2 →
      m.getD k1 0 ≠ m.getD k2 0)
    (hi : i < m.length) (a : Nat)
    (ha : ∀ k, i < k → k < m.length → m.getD k 0 ≠ a) :
    (elimH σ m i).rows a = σ.rows a := by
  unfold elimH
  refine (elimH_fold m i hpair hi _ ?_ (List.nodup_range' _ _) σ).1 a ?_
  · intro k hk
    have := List.mem_range'_1.mp hk
    omega
  · intro k hk
    have := List.mem_range'_1.mp hk
    exact ha k (by omega) (by omega)

lemma elimH_rows_at (σ : Store) (m : List Nat) (i : Nat)
    (hpair : ∀ k1, k1 < m.length → ∀ k2, k2 < m.length → k1 ≠ k2 →
      m.getD k1 0 ≠ m.getD k2 0)
    (hi : i < m.length) (k : Nat) (hik : i < k) (hk : k < m.length) :
    (elimH σ m i).rows (m.getD k 0) =
      elimRow (σ.rows (m.getD i 0)) ((σ.rows (m.getD i 0)).getD i 0) i
        (σ.rows (m.getD k 0)) := by
  unfold elimH
  refine (elimH_fold m i hpair hi _ ?_ (List.nodup_range' _ _) σ).2 k ?_
  · intro k' hk'
    have := List.mem_range'_1.mp hk'
    omega
  · exact List.mem_range'_1.mpr ⟨by omega, by omega⟩

lemma eliminateBelow_length (M : List (List Rat)) (i : Nat) :
    (eliminateBelow M i).length = M.length := by
  simp [eliminateBelow]

lemma eliminateBelow_getD (M : List (List Rat)) (i r : Nat) (hr : r < M.length) :
    (eliminateBelow M i).getD r [] =
      if i < r then
        elimRow (M.getD i []) ((M.getD i []).getD i 0) i (M.getD r [])
      else M.getD r [] := by
  simp only [eliminateBelow]
  rw [List.getD_eq_getElem _ [] (by simpa using hr), List.getElem_map,
    List.getElem_enum, List.getD_eq_getElem M [] hr]

lemma elimH_map (σ : Store) (m : List Nat) (i : Nat)
    (hpair : ∀ k1, k1 < m.length → ∀ k2, k2 < m.length → k1 ≠ k2 →
      m.getD k1 0 ≠ m.getD k2 0)
    (hi : i < m.length) :
    m.map (elimH σ m i).rows = eliminateBelow (m.map σ.rows) i := by
  have hlen : (m.map (elimH σ m i).rows).length
      = (eliminateBelow (m.map σ.rows) i).length := by
    rw [List.length_map, eliminateBelow_length, List.length_map]
  apply List.ext_getElem hlen
  intro r h1 h2
  rw [List.length_map] at h1
  have hrm : r < (m.map σ.rows).length := by rw [List.length_map]; exact h1
  rw [← List.getD_eq_getElem (m.map (elimH σ m i).rows) []
      (by rw [List.length_map]; exact h1),
    ← List.getD_eq_getElem _ [] h2,
    eliminateBelow_getD (m.map σ.rows) i r hrm,
    ← map_getD_rows (elimH σ m i) m r h1,
    ← map_getD_rows σ m r h1, ← map_getD_rows σ m i hi]
  by_cases hir : i < r
  · rw [if_pos hir]
    exact elimH_rows_at σ m i hpair hi r hir h1
  · rw [if_neg hir]
    exact elimH_frame σ m i hpair hi (m.getD r 0)
      (fun k hk1 hk2 => hpair k hk2 r h1 (by omega))

lemma detLoopH_spec (fuel : Nat) :
    ∀ (σ : Store) (m : List Nat) (det : Rat) (i lo : Nat),
      (∀ a ∈ m, lo ≤ a) →
      (∀ k1, k1 < m.length → ∀ k2, k2 < m.length → k1 ≠ k2 →
        m.getD k1 0 ≠ m.getD k2 0) →
      fuel + i = m.length →
      (detLoopH fuel σ m det i).1 = detLoop fuel (m.map σ.rows) det i ∧
      (∀ a, a < lo → (detLoopH fuel σ m det i).2.rows a = σ.rows a) ∧
      (detLoopH fuel σ m det i).2.next = σ.next := by
  induction fuel with
  | zero =>
    intro σ m det i lo _ _ _
    exact ⟨rfl, fun a _ => rfl, rfl⟩
  | succ fuel ih =>
    intro σ m det i lo hlo hpair hfi
    have hi : i < m.length := by omega
    have hml : (m.map σ.rows).length = m.length := List.length_map _ _
    have hpe : pivotSearchH σ m i = pivotSearch (m.map σ.rows) i :=
      pivotSearchH_eq σ m i hi
    have hmr : pivotSearch (m.map σ.rows) i < m.length := by
      rw [← hml]
      exact pivotSearch_lt _ i (by rw [hml]; exact hi)
    have hg : get2H σ m (pivotSearch (m.map σ.rows) i) i
        = get2 (m.map σ.rows) (pivotSearch (m.map σ.rows) i) i :=
      get2H_eq σ m _ i hmr
    simp only [detLoopH, detLoop, hpe, hg]
    by_cases hc :
        |get2 (m.map σ.rows) (pivotSearch (m.map σ.rows) i) i| < 1 / 10 ^ 10
    · rw [if_pos hc, if_pos hc]
      exact ⟨rfl, fun a _ => rfl, rfl⟩
    · rw [if_neg hc, if_neg hc]
      by_cases hsw : pivotSearch (m.map σ.rows) i ≠ i
      · simp only [if_pos hsw]
        have hm1len : (swapAddrs m i (pivotSearch (m.map σ.rows) i)).length
            = m.length := swapAddrs_length m i _
        have hm1lo : ∀ a ∈ swapAddrs m i (pivotSearch (m.map σ.rows) i), lo ≤ a :=
          fun a ha => hlo a (swapAddrs_mem m i _ a hi hmr ha)
        have hm1pair := swapAddrs_pairwise m i _ hi hmr hpair
        have hm1i : i < (swapAddrs m i (pivotSearch (m.map σ.rows) i)).length := by
          rw [hm1len]; exact hi
        have hmap : (swapAddrs m i (pivotSearch (m.map σ.rows) i)).map σ.rows
            = swapRows (m.map σ.rows) i (pivotSearch (m.map σ.rows) i) :=
          swapAddrs_map σ m i _ hi hmr
        have hg2 : get2H σ (swapAddrs m i (pivotSearch (m.map σ.rows) i)) i i
            = get2 (swapRows (m.map σ.rows) i (pivotSearch (m.map σ.rows) i)) i i := by
          rw [get2H_eq σ _ i i hm1i, hmap]
        have helim : (swapAddrs m i (pivotSearch (m.map σ.rows) i)).map
              (elimH σ (swapAddrs m i (pivotSearch (m.map σ.rows) i)) i).rows
            = eliminateBelow
                (swapRows (m.map σ.rows) i (pivotSearch (m.map σ.rows) i)) i := by
          rw [← hmap]
          exact elimH_map σ _ i hm1pair hm1i
        obtain ⟨ihv, ihf, ihn⟩ := ih
          (elimH σ (swapAddrs m i (pivotSearch (m.map σ.rows) i)) i)
          (swapAddrs m i (pivotSearch (m.map σ.rows) i))
          (-det * get2H σ (swapAddrs m i (pivotSearch (m.map σ.rows) i)) i i)
          (i + 1) lo hm1lo hm1pair (by rw [hm1len]; omega)
        refine ⟨?_, ?_, ?_⟩
        · rw [ihv, helim, hg2]
        · intro a halo
          rw [ihf a halo]
          refine elimH_frame σ _ i hm1pair hm1i a ?_
          intro k hk1 hk2 hka
          have hmem : (swapAddrs m i (pivotSearch (m.map σ.rows) i)).getD k 0
              ∈ swapAddrs m i (pivotSearch (m.map σ.rows) i) := by
            rw [List.getD_eq_getElem _ 0 hk2]
            exact List.getElem_mem hk2
          have := hm1lo _ hmem
          omega
        · rw [ihn]
          exact elimH_next σ _ i
      · simp only [if_neg hsw]
        have hg2 : get2H σ m i i = get2 (m.map σ.rows) i i :=
          get2H_eq σ m i i hi
        have helim : m.map (elimH σ m i).rows
            = eliminateBelow (m.map σ.rows) i := elimH_map σ m i hpair hi
        obtain ⟨ihv, ihf, ihn⟩ := ih (elimH σ m i) m
          (det * get2H σ m i i) (i + 1) lo hlo hpair (by omega)
        refine ⟨?_, ?_, ?_⟩
        · rw [ihv, helim, hg2]
        · intro a halo
          rw [ihf a halo]
          refine elimH_frame σ m i hpair hi a ?_
          intro k hk1 hk2 hka
          have hmem : m.getD k 0 ∈ m := by
            rw [List.getD_eq_getElem m 0 hk2]
            exact List.getElem_mem hk2
          have := hlo _ hmem
          omega
        · rw [ihn]
          exact elimH_next σ m i

lemma determinantH_spec (σ : Store) (matrix : List Nat) :
    (determinantH σ matrix).1 = determinant (matrix.map σ.rows) ∧
    (∀ a, a < σ.next → (determinantH σ matrix).2.rows a = σ.rows a) ∧
    σ.next ≤ (determinantH σ matrix).2.next := by
  simp only [determinantH, determinant, List.length_map]
  by_cases h0 : matrix.length = 0
  · rw [if_pos h0, if_pos h0]
    exact ⟨rfl, fun a _ => rfl, le_refl _⟩
  · rw [if_neg h0, if_neg h0]
    by_cases h1 : matrix.length = 1
    · rw [if_pos h1, if_pos h1]
      refine ⟨?_, fun a _ => rfl, le_refl _⟩
      show get2H σ matrix 0 0 = get2 (matrix.map σ.rows) 0 0
      exact get2H_eq σ matrix 0 0 (by omega)
    · rw [if_neg h1, if_neg h1]
      obtain ⟨hv, hf, hn⟩ := detLoopH_spec matrix.length
        (allocRows σ (matrix.map fun a => σ.rows a)).1
        (allocRows σ (matrix.map fun a => σ.rows a)).2 1 0 σ.next
        (fun a ha => (allocRows_mem_bound σ _ a ha).1)
        (allocRows_pairwise σ _)
        (by rw [allocRows_length, List.length_map]; omega)
      refine ⟨?_, ?_, ?_⟩
      · rw [hv, allocRows_map]
      · intro a ha
        rw [hf a ha]
        exact allocRows_rows_lo σ _ a ha
      · rw [hn, allocRows_next]
        omega

lemma removeIdx_map {α β : Type} (f : α → β) (l : List α) (i : Nat) :
    removeIdx (l.map f) i = (removeIdx l i).map f := by
  unfold removeIdx
  rw [List.enum_map, List.filter_map, List.map_map, List.map_map]
  have h1 : l.enum.filter ((fun p => decide (p.1 ≠ i)) ∘ Prod.map id f)
      = l.enum.filter (fun p => decide (p.1 ≠ i)) :=
    List.filter_congr (fun p _ => rfl)
  rw [h1]
  exact List.map_congr_left (fun p _ => rfl)

lemma minorDetH_spec (σ : Store) (matAddrs : List Nat) (i : Nat) :
    (minorDetH σ matAddrs i).1
      = determinant (minorAt (matAddrs.map σ.rows) i) ∧
    (∀ a, a < σ.next → (minorDetH σ matAddrs i).2.rows a = σ.rows a) ∧
    σ.next ≤ (minorDetH σ matAddrs i).2.next := by
  simp only [minorDetH]
  obtain ⟨hv, hf, hn⟩ := determinantH_spec
    (allocRows σ ((removeIdx matAddrs i).map fun a => removeIdx (σ.rows a) i)).1
    (allocRows σ ((removeIdx matAddrs i).map fun a => removeIdx (σ.rows a) i)).2
  refine ⟨?_, ?_, ?_⟩
  · rw [hv, allocRows_map]
    unfold minorAt
    rw [removeIdx_map, List.map_map]
    rfl
  · intro a ha
    rw [hf a (by rw [allocRows_next]; omega)]
    exact allocRows_rows_lo σ _ a ha
  · calc σ.next
        ≤ (allocRows σ ((removeIdx matAddrs i).map
            fun a => removeIdx (σ.rows a) i)).1.next := by
          rw [allocRows_next]; omega
      _ ≤ _ := hn

lemma computeMinorDetsH_fold (σ : Store) (matAddrs : List Nat)
    (hbound : ∀ a ∈ matAddrs, a < σ.next) :
    ∀ (ks : List Nat) (acc : List (Nat × Rat)) (σ' : Store),
      (∀ a, a < σ.next → σ'.rows a = σ.rows a) → σ.next ≤ σ'.next →
      (ks.foldl (fun acc2 i =>
          let r := minorDetH acc2.2 matAddrs i
          (acc2.1 ++ [(i, r.1)], r.2)) (acc, σ')).1
        = acc ++ ks.map (fun i =>
            (i, determinant (minorAt (matAddrs.map σ.rows) i))) ∧
      (∀ a, a < σ.next →
        (ks.foldl (fun acc2 i =>
            let r := minorDetH acc2.2 matAddrs i
            (acc2.1 ++ [(i, r.1)], r.2)) (acc, σ')).2.rows a = σ.rows a) ∧
      σ.next ≤ (ks.foldl (fun acc2 i =>
          let r := minorDetH acc2.2 matAddrs i
          (acc2.1 ++ [(i, r.1)], r.2)) (acc, σ')).2.next := by
  intro ks
  induction ks with
  | nil =>
    intro acc σ' hrows hnext
    exact ⟨(List.append_nil acc).symm, fun a ha => hrows a ha, hnext⟩
  | cons i t ih =>
    intro acc σ' hrows hnext
    obtain ⟨hv, hf, hn⟩ := minorDetH_spec σ' matAddrs i
    have hmapeq : matAddrs.map σ'.rows = matAddrs.map σ.rows :=
      List.map_congr_left (fun a ha => hrows a (hbound a ha))
    have hval : (minorDetH σ' matAddrs i).1
        = determinant (minorAt (matAddrs.map σ.rows) i) := by
      rw [hv, hmapeq]
    have hrows2 : ∀ a, a < σ.next →
        (minorDetH σ' matAddrs i).2.rows a = σ.rows a := by
      intro a ha
      rw [hf a (by omega)]
      exact hrows a ha
    have hnext2 : σ.next ≤ (minorDetH σ' matAddrs i).2.next := le_trans hnext hn
    obtain ⟨ihv, ihf, ihn⟩ := ih (acc ++ [(i, (minorDetH σ' matAddrs i).1)])
      (minorDetH σ' matAddrs i).2 hrows2 hnext2
    simp only [List.foldl_cons]
    refine ⟨?_, ihf, ihn⟩
    rw [ihv, hval, List.map_cons, List.append_assoc]
    rfl

lemma computeMinorDetsH_spec (σ : Store) (matAddrs : List Nat)
    (hbound : ∀ a ∈ matAddrs, a < σ.next) :
    (computeMinorDetsH σ matAddrs).1
      = (List.range matAddrs.length).map
          (fun i => (i, determinant (minorAt (matAddrs.map σ.rows) i))) ∧
    (∀ a, a < σ.next → (computeMinorDetsH σ matAddrs).2.rows a = σ.rows a) ∧
    σ.next ≤ (computeMinorDetsH σ matAddrs).2.next := by
  obtain ⟨hv, hf, hn⟩ := computeMinorDetsH_fold σ matAddrs hbound
    (List.range matAddrs.length) [] σ (fun a _ => rfl) (le_refl _)
  exact ⟨by rw [← List.nil_append (List.map _ _), ← hv]; rfl, hf, hn⟩

/-- **C10**: the determinant function never modifies its input. It eliminates
on a row-by-row copy (`matrix.map(row => [...row])`), so every heap row
allocated before the call — in particular every row of the input matrix — is
unchanged after the call, and the returned value is the determinant of the
input's (unchanged) contents. Consequently, in minor evaluation, computing
`Minor_i` for one index does not perturb the shared signed matrix: every minor
is extracted from the original matrix contents, and the matrix rows are still
intact after all minors have been computed. -/
theorem determinant_never_modifies_input (σ : Store) (matrix : List Nat)
    (hmat : ∀ a ∈ matrix, a < σ.next) :
    matrix.map (determinantH σ matrix).2.rows = matrix.map σ.rows ∧
    (determinantH σ matrix).1 = determinant (matrix.map σ.rows) ∧
    (computeMinorDetsH σ matrix).1
      = (List.range matrix.length).map
          (fun i => (i, determinant (minorAt (matrix.map σ.rows) i))) ∧
    matrix.map (computeMinorDetsH σ matrix).2.rows = matrix.map σ.rows := by
  obtain ⟨hv, hf, hn⟩ := determinantH_spec σ matrix
  obtain ⟨hv2, hf2, hn2⟩ := computeMinorDetsH_spec σ matrix hmat
  refine ⟨?_, hv, hv2, ?_⟩
  · exact List.map_congr_left (fun a ha => hf a (hmat a ha))
  · exact List.map_congr_left (fun a ha => hf2 a (hmat a ha))

/-- Closed instance of the C10 frame theorem at a one-row heap. -/
theorem determinant_never_modifies_input_witness :
    (∀ a ∈ ([0] : List Nat), a < (⟨fun _ => [(2 : Rat)], 1⟩ : Store).next) ∧
    ([0].map (determinantH ⟨fun _ => [(2 : Rat)], 1⟩ [0]).2.rows
        = [0].map (⟨fun _ => [(2 : Rat)], 1⟩ : Store).rows ∧
      (determinantH ⟨fun _ => [(2 : Rat)], 1⟩ [0]).1
        = determinant ([0].map (⟨fun _ => [(2 : Rat)], 1⟩ : Store).rows) ∧
      (computeMinorDetsH ⟨fun _ => [(2 : Rat)], 1⟩ [0]).1
        = (List.range ([0] : List Nat).length).map
            (fun i => (i, determinant
              (minorAt ([0].map (⟨fun _ => [(2 : Rat)], 1⟩ : Store).rows) i))) ∧
      [0].map (computeMinorDetsH ⟨fun _ => [(2 : Rat)], 1⟩ [0]).2.rows
        = [0].map (⟨fun _ => [(2 : Rat)], 1⟩ : Store).rows) := by
  have hmat : ∀ a ∈ ([0] : List Nat),
      a < (⟨fun _ => [(2 : Rat)], 1⟩ : Store).next := by
    intro a ha
    rcases List.mem_singleton.mp ha with rfl
    decide
  exact ⟨hmat, determinant_never_modifies_input ⟨fun _ => [(2 : Rat)], 1⟩ [0] hmat⟩
